import Mathlib

/-!
# A shallow embedding of the chronofold CRDT core

This file embeds the core of the `chronofold` crate in Lean 4 and proves
(or refutes) the specification claims about it.

Source correspondence (authors A are modelled as `Nat`, values T as `Char`;
`LogIndex` is a plain `Nat`):

* `src/src/change.rs` — `Change`
* `src/src/distributed.rs` — `Timestamp`, `Op`, `OpPayload`
* `src/src/error.rs` — `ChronofoldError` (note: the enum has exactly the
  two variants `UnknownReference` and `ExistingTimestamp`)
* `src/src/offsetmap.rs` — `OffsetMap` (a `BTreeMap` from keys to optional
  offsets; modelled as an association list with unique keys)
* `src/src/rangemap.rs` — `RangeFromMap`
* `src/src/version.rs` — `Version`
* `src/src/internal.rs` — `find_predecessor`, `log_index`, `timestamp`,
  `apply_change`, `apply_local_changes`, `find_last_delete`
* `src/src/iter.rs` — `iter_log_indices_causal_range`, `iter_subtree`,
  the element iterator `Iter`
* `src/src/lib.rs` — the outer `apply` (existing-timestamp check,
  reference resolution, `UnknownReference`)

Rust panics (usize underflow in debug builds, `unreachable!()`, slice
indexing out of bounds, `Option::unwrap` on `None`) are modelled by an
`Option`/result layer: `none` (or `ApplyResult.panicked`) means the Rust
code panics.  Iterators are modelled as fuel-bounded list producers; fuel
exhaustion (which in Rust would be a non-terminating iteration following a
cyclic `next` chain) is also mapped to the panic outcome.
-/

/-- Cast of an `isize` computation back to `usize`, as in
`(value.0 as isize + self.0) as usize` in `src/src/index.rs`.  The Rust
cast wraps modulo `2^64`; every offset computation in this crate is
`index + (value - index)` with both sides nonnegative `usize`s, and a
`Vec` can never physically hold `2^64` entries (allocation aborts long
before), so the cast is modelled exactly by `Int.toNat`.  (A negative
result — possible only for the `RelativeReference` default `-1` applied at
key `0`, a read no constructed entry performs because its reference is
always stored explicitly — would in Rust yield the out-of-bounds index
`2^64 - 1` and panic at its use site.) -/
def usizeOfInt (z : Int) : Nat := z.toNat

/-- Association-list lookup (models `BTreeMap::get`). -/
def alLookup {α : Type} : List (Nat × α) → Nat → Option α
  | [], _ => none
  | (k, v) :: rest, key => if k = key then some v else alLookup rest key

/-- Association-list key removal (models `BTreeMap::remove`). -/
def alErase {α : Type} (key : Nat) (l : List (Nat × α)) : List (Nat × α) :=
  l.filter (fun p => p.1 ≠ key)

/-- Association-list insert-or-replace (models `BTreeMap::insert`). -/
def alInsert {α : Type} (key : Nat) (v : α) (l : List (Nat × α)) :
    List (Nat × α) :=
  (key, v) :: alErase key l

/-- `Timestamp` from `src/src/distributed.rs`: an ordered pair of the
author's log index and the author. -/
structure Timestamp where
  li : Nat
  au : Nat
deriving DecidableEq, Repr

/-- The derived lexicographic strict order on `Timestamp` (Rust derives
`PartialOrd`/`Ord` on `Timestamp(LogIndex, A)`). -/
def Timestamp.lt (a b : Timestamp) : Bool :=
  a.li < b.li || (a.li = b.li && a.au < b.au)

/-- `Change` from `src/src/change.rs`: an entry in the chronofold's log. -/
inductive Change where
  | root
  | insert (v : Char)
  | delete
deriving DecidableEq, Repr

/-- `OpPayload` from `src/src/distributed.rs`. -/
inductive OpPayload where
  | root
  | insert (ref : Option Timestamp) (v : Char)
  | delete (ref : Timestamp)
deriving DecidableEq, Repr

/-- `Op` from `src/src/distributed.rs`. -/
structure Op where
  id : Timestamp
  payload : OpPayload
deriving DecidableEq, Repr

/-- `OpPayload::reference` from `src/src/distributed.rs`. -/
def OpPayload.reference : OpPayload → Option Timestamp
  | .root => none
  | .insert ref _ => ref
  | .delete ref => some ref

/-- The local change carried by a payload (the wire value conversion
`into_local_value` is the identity here). -/
def OpPayload.toChange : OpPayload → Change
  | .root => .root
  | .insert _ v => .insert v
  | .delete _ => .delete

/-- `Op::root` constructor from `src/src/distributed.rs`. -/
def Op.root (id : Timestamp) : Op := ⟨id, .root⟩

/-- `Op::insert` constructor from `src/src/distributed.rs`. -/
def Op.insert (id : Timestamp) (ref : Option Timestamp) (v : Char) : Op :=
  ⟨id, .insert ref v⟩

/-- `Op::delete` constructor from `src/src/distributed.rs`. -/
def Op.delete (id : Timestamp) (ref : Timestamp) : Op := ⟨id, .delete ref⟩

/-- `ChronofoldError` from `src/src/error.rs`.  The enum has exactly these
two variants; in particular there is no `FutureTimestamp` variant. -/
inductive ChronofoldError where
  | unknownReference (op : Op)
  | existingTimestamp (op : Op)
deriving DecidableEq, Repr

/-- `OffsetMap<LogIndex, O>` from `src/src/offsetmap.rs`, with default
offset `dflt` (`1` for `RelativeNextIndex`, `-1` for `RelativeReference`).
The `BTreeMap<K, Option<O>>` is modelled as an association list from keys
to optional offsets. -/
structure OffsetMap where
  dflt : Int
  map : List (Nat × Option Int)
deriving DecidableEq, Repr

/-- `OffsetMap::get`: `Some(None)` stored means `None`; a stored offset is
added to the key; an absent key yields the default offset applied. -/
def OffsetMap.get (m : OffsetMap) (k : Nat) : Option Nat :=
  match alLookup m.map k with
  | some none => none
  | some (some off) => some (usizeOfInt ((k : Int) + off))
  | none => some (usizeOfInt ((k : Int) + m.dflt))

/-- `OffsetMap::set`: the default value is never stored. -/
def OffsetMap.set (m : OffsetMap) (k : Nat) (v : Option Nat) : OffsetMap :=
  match v with
  | some v =>
    if usizeOfInt ((k : Int) + m.dflt) = v then
      { m with map := alErase k m.map }
    else
      { m with map := alInsert k (some ((v : Int) - (k : Int))) m.map }
  | none => { m with map := alInsert k none m.map }

/-- `RangeFromMap<LogIndex, V>` from `src/src/rangemap.rs`: a map holding
values for ranges of keys (`key..`). -/
structure RangeFromMap where
  map : List (Nat × Nat)
deriving DecidableEq, Repr

/-- Pick the entry with the greatest key `≤ k` (models
`self.map.range(..=key).next_back()`; keys are unique). -/
def rfmBest (k : Nat) : List (Nat × Nat) → Option (Nat × Nat)
  | [] => none
  | p :: rest =>
    match rfmBest k rest with
    | none => if p.1 ≤ k then some p else none
    | some q => if p.1 ≤ k && q.1 < p.1 then some p else some q

/-- `RangeFromMap::get`. -/
def RangeFromMap.get (m : RangeFromMap) (k : Nat) : Option Nat :=
  (rfmBest k m.map).map (·.2)

/-- `RangeFromMap::set`: skips the write when the defaulted value already
matches. -/
def RangeFromMap.set (m : RangeFromMap) (k : Nat) (v : Nat) : RangeFromMap :=
  if m.get k = some v then m else { map := alInsert k v m.map }

/-- `Version` from `src/src/version.rs`: a vector clock keyed by author. -/
structure Version where
  log_indices : List (Nat × Nat)
deriving DecidableEq, Repr

/-- `Version::inc`: join `max(current[author], log_index)`, inserting the
log index when the author is absent. -/
def Version.inc (v : Version) (t : Timestamp) : Version :=
  match alLookup v.log_indices t.au with
  | some cur => ⟨alInsert t.au (Nat.max cur t.li) v.log_indices⟩
  | none => ⟨alInsert t.au t.li v.log_indices⟩

/-- `Version::get`. -/
def Version.get (v : Version) (author : Nat) : Option Nat :=
  alLookup v.log_indices author

/-- The `Chronofold` replica state: the log plus the secondary maps, as in
`src/src/lib.rs`.  The `root` field holds the log index of the root entry
(`LogIndex(0)` for every replica constructed from the empty state). -/
structure Chronofold where
  log : List Change
  root : Nat
  version : Version
  next_indices : OffsetMap
  references : OffsetMap
  authors : RangeFromMap
  index_shifts : RangeFromMap
deriving DecidableEq, Repr

/-- The empty replica: empty log, empty maps, default offsets `1` for
`next_indices` and `-1` for `references`. -/
def emptyChronofold : Chronofold :=
  { log := []
    root := 0
    version := ⟨[]⟩
    next_indices := ⟨1, []⟩
    references := ⟨-1, []⟩
    authors := ⟨[]⟩
    index_shifts := ⟨[]⟩ }

/-- `Chronofold::timestamp` from `src/src/internal.rs`: reconstruct the
timestamp of a log entry from its index shift and author. -/
def Chronofold.timestamp (cf : Chronofold) (index : Nat) : Option Timestamp :=
  match cf.index_shifts.get index, cf.authors.get index with
  | some shift, some author => some ⟨index - shift, author⟩
  | _, _ => none

/-- `Chronofold::log_index` from `src/src/internal.rs`: scan the log from
the timestamp's own log index forward. -/
def Chronofold.log_index (cf : Chronofold) (t : Timestamp) : Option Nat :=
  (List.range' t.li (cf.log.length - t.li)).find?
    (fun i => cf.timestamp i = some t)

/-- `Chronofold::index_after` from `src/src/index.rs`. -/
def Chronofold.index_after (cf : Chronofold) (index : Nat) : Option Nat :=
  cf.next_indices.get index

/-- The loop of `CausalIter::next` from `src/src/iter.rs`, unbounded end,
collected into a list.  `none` models a panic (`self.cfold.log[current.0]`
with an out-of-bounds index) or a diverging iteration (fuel exhaustion on
a cyclic `next` chain). -/
def causalListAux (cf : Chronofold) : Nat → Option Nat → Option (List (Change × Nat))
  | _, none => some []
  | 0, some _ => none
  | fuel + 1, some i =>
    match cf.log.get? i with
    | none => none
    | some c => (causalListAux cf fuel (cf.index_after i)).map (fun l => (c, i) :: l)

/-- The start-bound adjustment of `iter_log_indices_causal_range` in
`src/src/iter.rs`: if the current entry is a `Root` change, move past it. -/
def Chronofold.skipRoot (cf : Chronofold) (cur : Option Nat) : Option Nat :=
  match cur with
  | some idx => if cf.log.get? idx = some .root then cf.index_after idx else some idx
  | none => none

/-- `iter_log_indices_causal_range(start..)` with an included start bound. -/
def Chronofold.iter_causal_from (cf : Chronofold) (start : Nat) :
    Option (List (Change × Nat)) :=
  causalListAux cf (cf.log.length + 1) (cf.skipRoot (some start))

/-- `iter_log_indices_causal_range(..)` with unbounded bounds: the current
index starts at `index_after(root)`. -/
def Chronofold.iter_causal_all (cf : Chronofold) :
    Option (List (Change × Nat)) :=
  causalListAux cf (cf.log.length + 1) (cf.skipRoot (cf.index_after cf.root))

/-- The accumulation loop of `Chronofold::iter_subtree` from
`src/src/iter.rs`: keep an entry if it is the subtree root or its
reference is already in the subtree set. -/
def subtreeAux (cf : Chronofold) (root : Nat) :
    List (Change × Nat) → List Nat → List Nat
  | [], acc => acc
  | (_, idx) :: rest, acc =>
    if idx = root || (match cf.references.get idx with
                      | some r => acc.contains r
                      | none => false) then
      subtreeAux cf root rest (acc ++ [idx])
    else
      subtreeAux cf root rest acc

/-- `Chronofold::iter_subtree` from `src/src/iter.rs`, collected into a
list of log indices in causal order. -/
def Chronofold.iter_subtree (cf : Chronofold) (root : Nat) :
    Option (List Nat) :=
  (cf.iter_causal_from root).map (fun l => subtreeAux cf root l [])

/-- The second filter of `find_predecessor`:
`matches!(c, Change::Delete) || self.timestamp(i).unwrap() > id`.
`none` models the `unwrap` panic (the `||` is short-circuiting, so the
timestamp is only read for non-delete entries). -/
def siblingKeep (cf : Chronofold) (id : Timestamp) (p : Change × Nat) :
    Option Bool :=
  match p.1 with
  | .delete => some true
  | _ => (cf.timestamp p.2).map (fun t => id.lt t)

/-- Panic-propagating filter used to model the closure above over a list. -/
def filterPanicAux (cf : Chronofold) (id : Timestamp) :
    List (Change × Nat) → Option (List (Change × Nat))
  | [] => some []
  | p :: rest =>
    match siblingKeep cf id p with
    | none => none
    | some true => (filterPanicAux cf id rest).map (fun l => p :: l)
    | some false => filterPanicAux cf id rest

/-- `Chronofold::find_predecessor` from `src/src/internal.rs` (the version
taking the causal range `reference..`).  The outer `Option` is the panic
layer: `unreachable!()` arms and `unwrap` panics map to `none`. -/
def Chronofold.find_predecessor (cf : Chronofold) (id : Timestamp)
    (reference : Option Nat) (change : Change) : Option (Option Nat) :=
  match reference, change with
  | _, .delete => some reference
  | none, .root => some none
  | _, .root => none
  | some r, _ =>
    match cf.iter_causal_from r with
    | none => none
    | some l =>
      let siblings := l.filter (fun p => cf.references.get p.2 = some r)
      match filterPanicAux cf id siblings with
      | none => none
      | some kept =>
        match kept.getLast? with
        | some (_, idx) =>
          (cf.iter_subtree idx).map (fun sub => sub.getLast?)
        | none => some (some r)
  | none, _ => none

/-- `Chronofold::apply_change` from `src/src/internal.rs`.  Returns `none`
when the Rust code panics: a `find_predecessor` panic, or the unchecked
usize subtraction `new_index.0 - (id.0).0` underflowing (the index shift
of the new entry). -/
def Chronofold.apply_change (cf : Chronofold) (id : Timestamp)
    (reference : Option Nat) (change : Change) : Option (Chronofold × Nat) :=
  match cf.find_predecessor id reference change with
  | none => none
  | some predecessor =>
    let new_index := cf.log.length
    let next_index : Option Nat :=
      match predecessor with
      | some idx => cf.next_indices.get idx
      | none => none
    let nexts1 : OffsetMap :=
      match predecessor with
      | some idx => cf.next_indices.set idx (some new_index)
      | none => cf.next_indices
    if id.li ≤ new_index then
      some ({ cf with
              log := cf.log ++ [change]
              next_indices := nexts1.set new_index next_index
              authors := cf.authors.set new_index id.au
              index_shifts := cf.index_shifts.set new_index (new_index - id.li)
              references := cf.references.set new_index reference
              version := cf.version.inc id }, new_index)
    else
      none

/-- The result of `Chronofold::apply`: success, a returned error (carrying
the untouched replica state, mirroring that the Rust method returns the
error before any mutation of `&mut self`), or a panic. -/
inductive ApplyResult where
  | ok (cf : Chronofold)
  | err (e : ChronofoldError) (cf : Chronofold)
  | panicked
deriving DecidableEq, Repr

/-- `Chronofold::apply` from `src/src/lib.rs`: check for an existing
timestamp, resolve the reference timestamp to a log index, and delegate to
`apply_change`.  Note there is no future-timestamp check. -/
def Chronofold.apply (cf : Chronofold) (op : Op) : ApplyResult :=
  if (cf.log_index op.id).isSome then
    .err (.existingTimestamp op) cf
  else
    match op.payload.reference with
    | some t =>
      match cf.log_index t with
      | some reference =>
        match cf.apply_change op.id (some reference) op.payload.toChange with
        | some (cf', _) => .ok cf'
        | none => .panicked
      | none => .err (.unknownReference op) cf
    | none =>
      match cf.apply_change op.id none op.payload.toChange with
      | some (cf', _) => .ok cf'
      | none => .panicked

/-- `Chronofold::find_last_delete` from `src/src/internal.rs`: the last
sibling `Delete` targeting `reference` in causal order.  The outer
`Option` is the panic layer of the causal iteration. -/
def Chronofold.find_last_delete (cf : Chronofold) (reference : Nat) :
    Option (Option Nat) :=
  (cf.iter_causal_from reference).map (fun l =>
    (((l.drop 1).filter
        (fun p => p.1 = Change.delete ∧ cf.references.get p.2 = some reference)
      ).getLast?).map (·.2))

/-- The `for change in changes` loop of `apply_local_changes`: each
subsequent change is appended to the log; its index is
`RelativeNextIndex::default().add(&predecessor)`, i.e. `predecessor + 1`;
no secondary map is written (the defaults cover them). -/
def applyLocalRest (author : Nat) :
    Chronofold → Nat → Timestamp → List Change → Chronofold × Timestamp
  | cf, _, lastId, [] => (cf, lastId)
  | cf, predecessor, _, c :: rest =>
    let new_index := usizeOfInt ((predecessor : Int) + 1)
    applyLocalRest author { cf with log := cf.log ++ [c] }
      new_index ⟨new_index, author⟩ rest

/-- `Chronofold::apply_local_changes` from `src/src/internal.rs`.  The
outer `Option` is the panic layer (from `find_last_delete`'s causal
iteration); the inner optional log index is the index of the last applied
change, as in the source. -/
def Chronofold.apply_local_changes (cf : Chronofold) (author : Nat)
    (reference : Nat) (changes : List Change) :
    Option (Chronofold × Option Nat) :=
  match cf.find_last_delete reference with
  | none => none
  | some fld =>
    let predecessor := fld.getD reference
    match changes with
    | [] => some (cf, none)
    | first :: rest =>
      let new_index := cf.log.length
      let last_next_index := cf.next_indices.get predecessor
      let cf1 : Chronofold :=
        { cf with
          next_indices := cf.next_indices.set predecessor (some new_index)
          log := cf.log ++ [first]
          authors := cf.authors.set new_index author
          index_shifts := cf.index_shifts.set new_index 0
          references := cf.references.set new_index (some predecessor) }
      let (cf2, lastId) := applyLocalRest author cf1 new_index ⟨new_index, author⟩ rest
      some ({ cf2 with
              next_indices := cf2.next_indices.set lastId.li last_next_index
              version := cf2.version.inc lastId }, some lastId.li)

/-- The loop of `Iter::next` from `src/src/iter.rs` (the element iterator):
`current` holds the lookahead item; a run of `Delete` entries immediately
following the current item tombstones it.  `none` models the
`unreachable!()` arm (a `Root` or `Delete` entry surviving with no
tombstone run before it). -/
def elemIterAux (fuel : Nat) (current : Option (Change × Nat))
    (rem : List (Change × Nat)) : Option (List (Char × Nat)) :=
  match fuel with
  | 0 => none
  | fuel + 1 =>
    let dels := rem.takeWhile (fun p => p.1 = Change.delete)
    let rest := rem.dropWhile (fun p => p.1 = Change.delete)
    let nxt := rest.head?
    let rem' := rest.drop 1
    if dels.isEmpty then
      match current with
      | none => some []
      | some (.insert v, idx) =>
        (elemIterAux fuel nxt rem').map (fun l => (v, idx) :: l)
      | some _ => none
    else
      elemIterAux fuel nxt rem'

/-- `Chronofold::iter` / `iter_elements` from `src/src/iter.rs`: the
visible elements with their log indices, in causal order. -/
def Chronofold.iter_elements (cf : Chronofold) : Option (List (Char × Nat)) :=
  match cf.iter_causal_all with
  | none => none
  | some items =>
    elemIterAux (items.length + 2) items.head? (items.drop 1)

/-- The visible sequence (the `Display` impl folds the element values). -/
def Chronofold.visible (cf : Chronofold) : Option (List Char) :=
  cf.iter_elements.map (fun l => l.map (·.1))

/-- Follow a `next` function from a start index, collecting visited
indices; fuel-bounded. -/
def walkAux (next : Nat → Option Nat) : Nat → Option Nat → List Nat
  | 0, _ => []
  | _ + 1, none => []
  | fuel + 1, some i => i :: walkAux next fuel (next i)

/-- The raw causal walk: follow `next_indices` from the first causal entry
(the root entry, at the `root` field).  This is the stepping of
`CausalIter` (`index_after`) started at the root itself. -/
def Chronofold.causal_walk (cf : Chronofold) : List Nat :=
  if cf.log.isEmpty then []
  else walkAux (fun i => cf.next_indices.get i) (cf.log.length + 1) (some cf.root)

/-- Fold `apply` over a list of ops, succeeding only if every op is
applied successfully. -/
def applyOps : Chronofold → List Op → Option Chronofold
  | cf, [] => some cf
  | cf, op :: rest =>
    match cf.apply op with
    | .ok cf' => applyOps cf' rest
    | _ => none

/-- Insert `n` right after the first occurrence of `p` in a list (used to
describe how `apply_change` splices a new entry into the causal walk). -/
def insertAfter (l : List Nat) (p n : Nat) : List Nat :=
  match l with
  | [] => []
  | x :: xs => if x = p then x :: n :: xs else x :: insertAfter xs p n

/-- Replica states reachable from the empty chronofold by successful
`apply` calls and by session batches (`apply_local_changes`, the common
path of all `Session` editing methods, which only ever emit `Insert` and
`Delete` changes). -/
inductive Reachable : Chronofold → Prop
  | empty : Reachable emptyChronofold
  | applyStep {cf cf' : Chronofold} {op : Op} :
      Reachable cf → cf.apply op = .ok cf' → Reachable cf'
  | localStep {cf cf' : Chronofold} {author reference : Nat}
      {changes : List Change} {out : Option Nat} :
      Reachable cf → Change.root ∉ changes →
      cf.apply_local_changes author reference changes = some (cf', out) →
      Reachable cf'

/-- Like `Reachable`, but a root op (an op whose reference is `None`) may
only be applied to the still-empty replica, so the replica holds at most
one root entry. -/
inductive SingleRootReachable : Chronofold → Prop
  | empty : SingleRootReachable emptyChronofold
  | applyStep {cf cf' : Chronofold} {op : Op} :
      SingleRootReachable cf → cf.apply op = .ok cf' →
      (op.payload.reference = none → cf.log = []) → SingleRootReachable cf'
  | localStep {cf cf' : Chronofold} {author reference : Nat}
      {changes : List Change} {out : Option Nat} :
      SingleRootReachable cf → Change.root ∉ changes →
      cf.apply_local_changes author reference changes = some (cf', out) →
      SingleRootReachable cf'

/-- Extract the new state out of a successful `ApplyResult`. -/
def okState (dflt : Chronofold) : ApplyResult → Chronofold
  | .ok cf => cf
  | .err _ cf => cf
  | .panicked => dflt

/-- The three ops building the shared initial replica of the convergence
counterexample: a root by author 0 and the two characters `1`, `2` by
author 1 (the log-order state both replicas start from). -/
def opsInit : List Op :=
  [Op.root ⟨0, 0⟩,
   Op.insert ⟨1, 1⟩ (some ⟨0, 0⟩) '1',
   Op.insert ⟨2, 1⟩ (some ⟨1, 1⟩) '2']

/-- Author 1 deletes the entry `'2'` (timestamp `(2,1)`). -/
def opL1 : Op := Op.delete ⟨3, 1⟩ ⟨2, 1⟩

/-- Author 1 inserts `'X'` after their own delete (timestamp `(3,1)`). -/
def opL2 : Op := Op.insert ⟨4, 1⟩ (some ⟨3, 1⟩) 'X'

/-- Author 2 concurrently deletes the same entry `'2'`. -/
def opR1 : Op := Op.delete ⟨3, 2⟩ ⟨2, 1⟩

/-- Author 2 inserts `'Y'` after their own delete (timestamp `(3,2)`). -/
def opR2 : Op := Op.insert ⟨4, 2⟩ (some ⟨3, 2⟩) 'Y'

/-- Delivery order A of the fixed op set: author 1's edits first. -/
def deliveryA : List Op := opsInit ++ [opL1, opL2, opR1, opR2]

/-- Delivery order B of the same op set: author 2's edits first.  In both
orders every op's reference is applied before the op itself. -/
def deliveryB : List Op := opsInit ++ [opR1, opR2, opL1, opL2]

/-- A replica holding just a root entry authored by author 0 (the state
`Chronofold::default()` produces in the `Change::Root` revision). -/
def cfRoot : Chronofold := okState emptyChronofold (emptyChronofold.apply (Op.root ⟨0, 0⟩))

/-- The op of `tests/errors.rs::future_timestamp`: an insert whose id
`(9, 1)` exceeds the log length, with a known reference `(0, 0)`. -/
def futureOp : Op := Op.insert ⟨9, 1⟩ (some ⟨0, 0⟩) '.'

/-- A replica holding just a root entry authored by author 5. -/
def cfRootFive : Chronofold :=
  okState emptyChronofold (emptyChronofold.apply (Op.root ⟨0, 5⟩))

/-- A replica with two root entries, reached by applying two root ops. -/
def cfTwoRoots : Chronofold :=
  okState emptyChronofold (cfRootFive.apply (Op.root ⟨0, 7⟩))

/-- The state after a successful session batch (used to name concrete
witness states). -/
def localState (cf : Chronofold) (author reference : Nat)
    (changes : List Change) : Chronofold :=
  ((cf.apply_local_changes author reference changes).map (fun p => p.1)).getD cf

/-- Concrete session states for witnesses: a root plus `'!'`. -/
def cfBang : Chronofold := localState cfRoot 1 0 [Change.insert '!']

/-- `cfBang` with the `'!'` entry deleted (tombstone at log index 2). -/
def cfBangDel : Chronofold := localState cfBang 1 1 [Change.delete]

/-- Proof infrastructure: the pointwise effect of splicing node `n` right
after node `p` on a `next` function, as `apply_change` does. -/
def spliceFun (g : Nat → Option Nat) (p n : Nat) : Nat → Option Nat :=
  fun i => if i = p then some n else if i = n then g p else g i

/-- Proof infrastructure: the pointwise effect of splicing the chain of
nodes `a, a+1, …, a+k` right after node `p`, as a session batch does. -/
def chainFun (g : Nat → Option Nat) (p a k : Nat) : Nat → Option Nat :=
  fun i =>
    if i = p then some a
    else if a ≤ i ∧ i ≤ a + k then (if i < a + k then some (i + 1) else g p)
    else g i

/-- The state after a successful `apply_change` (used to name concrete
witness states). -/
def applyChangeState (cf : Chronofold) (id : Timestamp) (reference : Option Nat)
    (change : Change) : Chronofold :=
  ((cf.apply_change id reference change).map (fun p => p.1)).getD cf

/-- The shared initial replica of the counterexample: root, `'1'`, `'2'`. -/
def cfInit12 : Chronofold := (applyOps emptyChronofold opsInit).getD emptyChronofold

/-- `cfInit12` after author 1's delete of `'2'` (tombstone at index 3). -/
def cfDel1 : Chronofold := (applyOps cfInit12 [opL1]).getD cfInit12

/-- Intermediate state: `cfRoot` plus `'1'` applied as a remote op. -/
def cfR1 : Chronofold :=
  okState emptyChronofold (cfRoot.apply (Op.insert ⟨1, 1⟩ (some ⟨0, 0⟩) '1'))

/-- Intermediate state: `cfR1` plus `'2'` applied as a remote op. -/
def cfR12 : Chronofold :=
  okState emptyChronofold (cfR1.apply (Op.insert ⟨2, 1⟩ (some ⟨1, 1⟩) '2'))

/-- `cfDel1` after a second, concurrent delete of `'2'` by author 2. -/
def cfDel2 : Chronofold := applyChangeState cfDel1 ⟨3, 2⟩ (some 2) Change.delete

/-- `cfDel1` after author 2 inserts `'Y'` with reference index 2. -/
def cfY : Chronofold := applyChangeState cfDel1 ⟨4, 2⟩ (some 2) (Change.insert 'Y')

/- ===================== end of definitions; theorems below ===================== -/

/-- C1.  The op set `{opsInit, opL1, opL2, opR1, opR2}` delivered in two
causally valid orders does not commute: order A leaves the visible
sequence `"1X"`, order B leaves `"1Y"`.  Both runs apply every op
successfully, so the claimed commutativity fails on the code. -/
theorem claim_c1_counterexample :
    (applyOps emptyChronofold deliveryA).map Chronofold.visible
      = some (some ['1', 'X']) ∧
    (applyOps emptyChronofold deliveryB).map Chronofold.visible
      = some (some ['1', 'Y']) := by
  exact ⟨rfl, rfl⟩

/-- C3.  The op of `tests/errors.rs::future_timestamp` — id `(9, 1)`
beyond the log length, reference `(0, 0)` resolving to the root — is not
rejected with any error: `apply` has no future-timestamp check (the error
enum has no such variant) and the index-shift subtraction underflows, so
the call panics. -/
theorem claim_c3_no_future_timestamp_check :
    cfRoot.apply futureOp = .panicked := by
  exact rfl

/-- C10.  A root op with id `(5, 3)` applied to the empty chronofold
passes the existing-timestamp check (`log_index` finds nothing) and needs
no reference check, yet `apply` does not return an error: the unchecked
subtraction `new_index.0 - (id.0).0` (0 - 5) underflows and the call
panics. -/
theorem claim_c10_underflow_panics :
    emptyChronofold.log_index ⟨5, 3⟩ = none ∧
    emptyChronofold.apply (Op.root ⟨5, 3⟩) = .panicked := by
  exact ⟨rfl, rfl⟩

/-- C6, counterexample.  Applying a second root op yields a reachable
replica whose causal walk visits only the first root: the walk misses log
index 1, so it is not a permutation of `0..len`. -/
theorem claim_c6_counterexample :
    Reachable cfTwoRoots ∧
    ¬ (cfTwoRoots.causal_walk).Perm (List.range cfTwoRoots.log.length) := by
  constructor
  · have h1 : Reachable cfRootFive :=
      Reachable.applyStep Reachable.empty
        (show emptyChronofold.apply (Op.root ⟨0, 5⟩) = .ok cfRootFive from rfl)
    exact Reachable.applyStep h1
      (show cfRootFive.apply (Op.root ⟨0, 7⟩) = .ok cfTwoRoots from rfl)
  · decide

theorem alLookup_alInsert_self {α : Type} (l : List (Nat × α)) (k : Nat) (v : α) :
    alLookup (alInsert k v l) k = some v := by
  simp [alInsert, alLookup]

theorem alLookup_alErase_ne {α : Type} (l : List (Nat × α)) (k j : Nat)
    (h : j ≠ k) : alLookup (alErase k l) j = alLookup l j := by
  induction l with
  | nil => rfl
  | cons p rest ih =>
    rcases p with ⟨pk, pv⟩
    by_cases hp : pk = k
    · have h1 : alErase k ((pk, pv) :: rest) = alErase k rest := by
        simp [alErase, List.filter_cons, hp]
      have h2 : pk ≠ j := by omega
      rw [h1, ih]
      simp [alLookup, h2]
    · have h1 : alErase k ((pk, pv) :: rest) = (pk, pv) :: alErase k rest := by
        simp [alErase, List.filter_cons, hp]
      rw [h1]
      simp only [alLookup, ih]

theorem alLookup_alInsert_ne {α : Type} (l : List (Nat × α)) (k j : Nat)
    (v : α) (h : j ≠ k) : alLookup (alInsert k v l) j = alLookup l j := by
  have h' : k ≠ j := by omega
  simp only [alInsert, alLookup, h', if_false]
  exact alLookup_alErase_ne l k j h

theorem alLookup_alErase_self {α : Type} (l : List (Nat × α)) (k : Nat) :
    alLookup (alErase k l) k = none := by
  induction l with
  | nil => rfl
  | cons p rest ih =>
    rcases p with ⟨pk, pv⟩
    by_cases hp : pk = k
    · have h1 : alErase k ((pk, pv) :: rest) = alErase k rest := by
        simp [alErase, List.filter_cons, hp]
      rw [h1, ih]
    · have h1 : alErase k ((pk, pv) :: rest) = (pk, pv) :: alErase k rest := by
        simp [alErase, List.filter_cons, hp]
      rw [h1]
      simp only [alLookup, hp, if_false, ih]

theorem OffsetMap.get_set_self (m : OffsetMap) (k : Nat) (v : Option Nat) :
    (m.set k v).get k = v := by
  match v with
  | none =>
    simp only [OffsetMap.set, OffsetMap.get, alLookup_alInsert_self]
  | some v =>
    simp only [OffsetMap.set, OffsetMap.get]
    by_cases hd : usizeOfInt ((k : Int) + m.dflt) = v
    · simp only [hd, if_true, alLookup_alErase_self]
    · simp only [hd, if_false, alLookup_alInsert_self]
      have : (k : Int) + ((v : Int) - (k : Int)) = (v : Int) := by ring
      rw [this]
      simp [usizeOfInt]

theorem OffsetMap.get_set_ne (m : OffsetMap) (k j : Nat) (v : Option Nat)
    (h : j ≠ k) : (m.set k v).get j = m.get j := by
  match v with
  | none =>
    simp only [OffsetMap.set, OffsetMap.get, alLookup_alInsert_ne _ _ _ _ h]
  | some v =>
    simp only [OffsetMap.set, OffsetMap.get]
    by_cases hd : usizeOfInt ((k : Int) + m.dflt) = v
    · simp only [hd, if_true, alLookup_alErase_ne _ _ _ h]
    · simp only [hd, if_false, alLookup_alInsert_ne _ _ _ _ h]

theorem rfmBest_le {k : Nat} {l : List (Nat × Nat)} {q : Nat × Nat}
    (h : rfmBest k l = some q) : q.1 ≤ k := by
  induction l generalizing q with
  | nil => simp [rfmBest] at h
  | cons p rest ih =>
    rw [rfmBest] at h
    split at h
    · split at h
      next hp => injection h with h'; subst h'; exact hp
      next => exact absurd h (by simp)
    next q' heq =>
      split at h
      next hc =>
        injection h with h'
        subst h'
        simp only [Bool.and_eq_true, decide_eq_true_eq] at hc
        exact hc.1
      next => injection h with h'; subst h'; exact ih heq

theorem rfmBest_mem {k : Nat} {l : List (Nat × Nat)} {q : Nat × Nat}
    (h : rfmBest k l = some q) : q ∈ l := by
  induction l generalizing q with
  | nil => simp [rfmBest] at h
  | cons p rest ih =>
    rw [rfmBest] at h
    split at h
    · split at h
      next => injection h with h'; subst h'; exact List.mem_cons_self _ _
      next => exact absurd h (by simp)
    next q' heq =>
      split at h
      next => injection h with h'; subst h'; exact List.mem_cons_self _ _
      next =>
        injection h with h'
        subst h'
        exact List.mem_cons_of_mem _ (ih heq)

theorem rfmBest_cons_gt {j : Nat} (p : Nat × Nat) (l : List (Nat × Nat))
    (h : j < p.1) : rfmBest j (p :: l) = rfmBest j l := by
  rw [rfmBest]
  cases hrest : rfmBest j l with
  | none => simp [show ¬(p.1 ≤ j) by omega]
  | some q => simp [show ¬(p.1 ≤ j) by omega]

theorem rfmBest_alErase_gt {j k : Nat} (l : List (Nat × Nat)) (h : j < k) :
    rfmBest j (alErase k l) = rfmBest j l := by
  induction l with
  | nil => rfl
  | cons p rest ih =>
    by_cases hp : p.1 = k
    · have h1 : alErase k (p :: rest) = alErase k rest := by
        simp [alErase, List.filter_cons, hp]
      rw [h1, ih, rfmBest_cons_gt p rest (by omega)]
    · have h1 : alErase k (p :: rest) = p :: alErase k rest := by
        simp [alErase, List.filter_cons, hp]
      rw [h1, rfmBest, rfmBest, ih]

theorem rfmBest_cons (p : Nat × Nat) (l : List (Nat × Nat)) (k : Nat) :
    rfmBest k (p :: l) = match rfmBest k l with
      | none => if p.1 ≤ k then some p else none
      | some q => if p.1 ≤ k && q.1 < p.1 then some p else some q := rfl

theorem RangeFromMap.get_set_same_key (m : RangeFromMap) (k v : Nat) :
    (m.set k v).get k = some v := by
  rw [RangeFromMap.set]
  by_cases hs : m.get k = some v
  · simp [hs]
  · rw [if_neg hs]
    show Option.map _ (rfmBest k (alInsert k v m.map)) = some v
    rw [alInsert, rfmBest_cons]
    cases hrest : rfmBest k (alErase k m.map) with
    | none => simp
    | some q =>
      have hq1 : q.1 ≤ k := rfmBest_le hrest
      have hq2 : q ∈ alErase k m.map := rfmBest_mem hrest
      have hq3 : q.1 ≠ k := by
        simp only [alErase, List.mem_filter] at hq2
        simpa using hq2.2
      simp [show q.1 < k by omega]

theorem RangeFromMap.get_set_lt (m : RangeFromMap) (k j v : Nat) (h : j < k) :
    (m.set k v).get j = m.get j := by
  rw [RangeFromMap.set]
  by_cases hs : m.get k = some v
  · simp [hs]
  · rw [if_neg hs]
    show Option.map _ (rfmBest j (alInsert k v m.map)) = Option.map _ (rfmBest j m.map)
    rw [alInsert, rfmBest_cons_gt (k, v) _ h, rfmBest_alErase_gt _ h]

theorem rfmBest_eq_of_keys_le {c j j' : Nat} (l : List (Nat × Nat))
    (hkeys : ∀ p ∈ l, p.1 ≤ c) (h1 : c ≤ j) (h2 : c ≤ j') :
    rfmBest j l = rfmBest j' l := by
  induction l with
  | nil => rfl
  | cons p rest ih =>
    have hp : p.1 ≤ c := hkeys p (List.mem_cons_self _ _)
    have ih' := ih (fun q hq => hkeys q (List.mem_cons_of_mem _ hq))
    rw [rfmBest, rfmBest, ih']
    cases rfmBest j' rest with
    | none => simp [show p.1 ≤ j by omega, show p.1 ≤ j' by omega]
    | some q => simp [show p.1 ≤ j by omega, show p.1 ≤ j' by omega]

theorem RangeFromMap.get_set_ge (m : RangeFromMap) (k j v : Nat)
    (hkeys : ∀ p ∈ m.map, p.1 < k) (h : k ≤ j) :
    (m.set k v).get j = some v := by
  have hkeys' : ∀ p ∈ (m.set k v).map, p.1 ≤ k := by
    intro p hp
    rw [RangeFromMap.set] at hp
    by_cases hs : m.get k = some v
    · simp only [hs, if_true] at hp
      exact le_of_lt (hkeys p hp)
    · simp only [hs, if_false] at hp
      rcases List.mem_cons.mp hp with h' | h'
      · rw [h']
      · have : p ∈ m.map := by
          simp only [alErase, List.mem_filter] at h'
          exact h'.1
        exact le_of_lt (hkeys p this)
  have : (m.set k v).get j = (m.set k v).get k := by
    unfold RangeFromMap.get
    rw [rfmBest_eq_of_keys_le _ hkeys' h (le_refl k)]
  rw [this, RangeFromMap.get_set_same_key]

theorem apply_change_fields {cf cf' : Chronofold} {id : Timestamp}
    {reference : Option Nat} {change : Change} {n : Nat}
    (h : cf.apply_change id reference change = some (cf', n)) :
    n = cf.log.length ∧ id.li ≤ cf.log.length ∧
    cf'.log = cf.log ++ [change] ∧
    cf'.root = cf.root ∧
    cf'.authors = cf.authors.set cf.log.length id.au ∧
    cf'.index_shifts = cf.index_shifts.set cf.log.length (cf.log.length - id.li) ∧
    cf'.references = cf.references.set cf.log.length reference ∧
    cf'.version = cf.version.inc id := by
  unfold Chronofold.apply_change at h
  cases hfp : cf.find_predecessor id reference change with
  | none => rw [hfp] at h; exact absurd h (by simp)
  | some pred =>
    rw [hfp] at h
    simp only [] at h
    split at h
    next hle =>
      injection h with h'
      injection h' with h1 h2
      subst h1
      subst h2
      refine ⟨rfl, hle, rfl, rfl, rfl, rfl, rfl, rfl⟩
    next => exact absurd h (by simp)

theorem timestamp_after_apply_change {cf cf' : Chronofold} {id : Timestamp}
    {reference : Option Nat} {change : Change} {n : Nat}
    (h : cf.apply_change id reference change = some (cf', n)) :
    cf'.timestamp cf.log.length = some id := by
  obtain ⟨-, hle, -, -, hau, hsh, -, -⟩ := apply_change_fields h
  rw [Chronofold.timestamp, hsh, hau,
    RangeFromMap.get_set_same_key, RangeFromMap.get_set_same_key]
  show some (⟨cf.log.length - (cf.log.length - id.li), id.au⟩ : Timestamp) = some id
  have h2 : cf.log.length - (cf.log.length - id.li) = id.li := by omega
  rw [h2]

theorem log_index_isSome_after_apply_change {cf cf' : Chronofold}
    {id : Timestamp} {reference : Option Nat} {change : Change} {n : Nat}
    (h : cf.apply_change id reference change = some (cf', n)) :
    (cf'.log_index id).isSome := by
  obtain ⟨-, hle, hlog, -, -, -, -, -⟩ := apply_change_fields h
  rw [Chronofold.log_index, List.find?_isSome]
  refine ⟨cf.log.length, ?_, ?_⟩
  · rw [List.mem_range'_1, hlog, List.length_append]
    simp only [List.length_cons, List.length_nil]
    omega
  · simp [timestamp_after_apply_change h]

theorem apply_ok_apply_change {cf cf' : Chronofold} {op : Op}
    (h : cf.apply op = .ok cf') :
    ∃ refIdx n, cf.apply_change op.id refIdx op.payload.toChange = some (cf', n) := by
  rw [Chronofold.apply] at h
  split at h
  next => exact absurd h (by simp)
  next =>
    rcases op with ⟨oid, pl⟩
    cases pl with
    | root =>
      cases hac : Chronofold.apply_change cf oid none OpPayload.root.toChange with
      | none =>
        rw [show (Op.mk oid OpPayload.root).payload.reference = none from rfl] at h
        simp only [hac] at h
        exact absurd h (by simp)
      | some p =>
        rcases p with ⟨cf2, n⟩
        rw [show (Op.mk oid OpPayload.root).payload.reference = none from rfl] at h
        simp only [hac] at h
        injection h with h'
        subst h'
        exact ⟨none, n, hac⟩
    | insert ref v =>
      cases ref with
      | none =>
        cases hac : Chronofold.apply_change cf oid none (OpPayload.insert none v).toChange with
        | none =>
          simp only [OpPayload.reference, hac] at h
          exact absurd h (by simp)
        | some p =>
          rcases p with ⟨cf2, n⟩
          simp only [OpPayload.reference, hac] at h
          injection h with h2
          subst h2
          exact ⟨none, n, hac⟩
      | some t =>
        simp only [OpPayload.reference] at h
        cases hli : cf.log_index t with
        | none =>
          simp only [hli] at h
          exact absurd h (by simp)
        | some r =>
          simp only [hli] at h
          cases hac : Chronofold.apply_change cf oid (some r) (OpPayload.insert (some t) v).toChange with
          | none =>
            simp only [hac] at h
            exact absurd h (by simp)
          | some p =>
            rcases p with ⟨cf2, n⟩
            simp only [hac] at h
            injection h with h2
            subst h2
            exact ⟨some r, n, hac⟩
    | delete t =>
      simp only [OpPayload.reference] at h
      cases hli : cf.log_index t with
      | none =>
        simp only [hli] at h
        exact absurd h (by simp)
      | some r =>
        simp only [hli] at h
        cases hac : Chronofold.apply_change cf oid (some r) (OpPayload.delete t).toChange with
        | none =>
          simp only [hac] at h
          exact absurd h (by simp)
        | some p =>
          rcases p with ⟨cf2, n⟩
          simp only [hac] at h
          injection h with h2
          subst h2
          exact ⟨some r, n, hac⟩

/-- C2.  Applying an op that was already applied successfully returns
`ExistingTimestamp` carrying that op and leaves the replica unchanged (the
error result carries the post-call state, which equals the pre-call
state: the Rust method returns before any mutation). -/
theorem claim_c2_idempotent {cf cf' : Chronofold} {op : Op}
    (h : cf.apply op = .ok cf') :
    cf'.apply op = .err (.existingTimestamp op) cf' := by
  obtain ⟨refIdx, n, hac⟩ := apply_ok_apply_change h
  have hsome : (cf'.log_index op.id).isSome := log_index_isSome_after_apply_change hac
  rw [Chronofold.apply, if_pos hsome]

/-- C2, witness: a root op applied to the empty replica, then applied
again, yields `ExistingTimestamp` and the untouched state. -/
theorem claim_c2_idempotent_witness :
    cfRoot.apply (Op.root ⟨0, 0⟩) = .err (.existingTimestamp (Op.root ⟨0, 0⟩)) cfRoot :=
  claim_c2_idempotent (show emptyChronofold.apply (Op.root ⟨0, 0⟩) = .ok cfRoot from rfl)

theorem usizeOfInt_add_one (p : Nat) : usizeOfInt ((p : Int) + 1) = p + 1 := by
  rw [usizeOfInt]
  omega

theorem applyLocalRest_spec (author : Nat) (cf : Chronofold) (p0 : Nat)
    (t0 : Timestamp) (rest : List Change) :
    applyLocalRest author cf p0 t0 rest =
      ({ cf with log := cf.log ++ rest },
       if rest.isEmpty then t0 else ⟨p0 + rest.length, author⟩) := by
  induction rest generalizing cf p0 t0 with
  | nil => simp [applyLocalRest]
  | cons c cs ih =>
    rw [applyLocalRest, usizeOfInt_add_one, ih]
    cases hcs : cs.isEmpty
    · have h2 : p0 + 1 + cs.length = p0 + (c :: cs).length := by
        simp only [List.length_cons]
        omega
      simp only [hcs, Bool.false_eq_true, if_false, List.isEmpty_cons, h2]
      simp
    · have hnil : cs = [] := List.isEmpty_iff.mp hcs
      subst hnil
      simp

theorem apply_local_changes_cons {cf cf' : Chronofold} {author reference : Nat}
    {first : Change} {rest : List Change} {out : Option Nat}
    (h : cf.apply_local_changes author reference (first :: rest) = some (cf', out)) :
    ∃ fld, cf.find_last_delete reference = some fld ∧
      out = some (cf.log.length + rest.length) ∧
      cf'.log = cf.log ++ (first :: rest) ∧
      cf'.root = cf.root ∧
      cf'.authors = cf.authors.set cf.log.length author ∧
      cf'.index_shifts = cf.index_shifts.set cf.log.length 0 ∧
      cf'.references = cf.references.set cf.log.length (some (fld.getD reference)) ∧
      cf'.version = cf.version.inc ⟨cf.log.length + rest.length, author⟩ ∧
      cf'.next_indices =
        ((cf.next_indices.set (fld.getD reference) (some cf.log.length)).set
          (cf.log.length + rest.length)
          (cf.next_indices.get (fld.getD reference))) := by
  rw [Chronofold.apply_local_changes] at h
  cases hfld : cf.find_last_delete reference with
  | none => rw [hfld] at h; exact absurd h (by simp)
  | some fld =>
    rw [hfld] at h
    refine ⟨fld, rfl, ?_⟩
    simp only [] at h
    rw [applyLocalRest_spec] at h
    have hlast : (if rest.isEmpty then (⟨cf.log.length, author⟩ : Timestamp)
        else ⟨cf.log.length + rest.length, author⟩) = ⟨cf.log.length + rest.length, author⟩ := by
      cases hrest : rest.isEmpty
      · simp
      · have hnil : rest = [] := List.isEmpty_iff.mp hrest
        subst hnil
        simp
    rw [hlast] at h
    have happ : (cf.log ++ [first]) ++ rest = cf.log ++ (first :: rest) := by simp
    rw [happ] at h
    injection h with h'
    injection h' with h1 h2
    subst h1
    subst h2
    exact ⟨rfl, rfl, rfl, rfl, rfl, rfl, rfl, rfl⟩

theorem version_inc_get_self (v : Version) (t : Timestamp) :
    (v.inc t).get t.au = some (match v.get t.au with
      | some cur => Nat.max cur t.li
      | none => t.li) := by
  cases h : alLookup v.log_indices t.au with
  | none => simp [Version.inc, Version.get, h, alLookup_alInsert_self]
  | some cur => simp [Version.inc, Version.get, h, alLookup_alInsert_self]

theorem version_inc_get_ne (v : Version) (t : Timestamp) (a : Nat)
    (h : a ≠ t.au) : (v.inc t).get a = v.get a := by
  cases hl : alLookup v.log_indices t.au <;>
    simp [Version.inc, Version.get, hl, alLookup_alInsert_ne _ _ _ _ h]

theorem version_inc_ge (v : Version) (t : Timestamp) :
    ∃ idx, (v.inc t).get t.au = some idx ∧ t.li ≤ idx := by
  rw [version_inc_get_self]
  cases h : v.get t.au with
  | none => exact ⟨t.li, rfl, le_refl _⟩
  | some cur => exact ⟨Nat.max cur t.li, rfl, Nat.le_max_right _ _⟩

/-- C9.  (1) After a successful `apply` of op `o`, the version holds an
entry for `o`'s author that is at least `o`'s log index.  (2) The same
holds for every change of a successful session batch (whose minted ids are
`(log.length + j, author)` for the `j`-th change).  (3) `Version::inc`
joins `max(current[author], log_index)` and leaves every other author's
entry untouched. -/
theorem claim_c9_version_monotone :
    (∀ (cf cf' : Chronofold) (op : Op), cf.apply op = .ok cf' →
      ∃ idx, cf'.version.get op.id.au = some idx ∧ op.id.li ≤ idx) ∧
    (∀ (cf cf' : Chronofold) (author reference : Nat) (first : Change)
        (rest : List Change) (out : Option Nat) (j : Nat),
      cf.apply_local_changes author reference (first :: rest) = some (cf', out) →
      j ≤ rest.length →
      ∃ idx, cf'.version.get author = some idx ∧ cf.log.length + j ≤ idx) ∧
    (∀ (v : Version) (t : Timestamp),
      (v.inc t).get t.au = some (match v.get t.au with
        | some cur => Nat.max cur t.li
        | none => t.li) ∧
      ∀ a, a ≠ t.au → (v.inc t).get a = v.get a) := by
  refine ⟨?_, ?_, ?_⟩
  · intro cf cf' op h
    obtain ⟨refIdx, n, hac⟩ := apply_ok_apply_change h
    obtain ⟨-, -, -, -, -, -, -, hver⟩ := apply_change_fields hac
    rw [hver]
    exact version_inc_ge _ _
  · intro cf cf' author reference first rest out j h hj
    obtain ⟨fld, -, -, -, -, -, -, -, hver, -⟩ := apply_local_changes_cons h
    rw [hver]
    obtain ⟨idx, hget, hle⟩ :=
      version_inc_ge cf.version ⟨cf.log.length + rest.length, author⟩
    exact ⟨idx, hget, by simp at hle; omega⟩
  · intro v t
    exact ⟨version_inc_get_self v t, fun a ha => version_inc_get_ne v t a ha⟩

/-- C9, witness: instantiating the three parts at concrete inputs. -/
theorem claim_c9_version_monotone_witness :
    (∃ idx, cfRoot.version.get 0 = some idx ∧ 0 ≤ idx) ∧
    (∃ idx, (localState cfRoot 1 0 [Change.insert 'a']).version.get 1 = some idx ∧
      1 + 0 ≤ idx) := by
  constructor
  · exact claim_c9_version_monotone.1 emptyChronofold cfRoot (Op.root ⟨0, 0⟩) rfl
  · have h := claim_c9_version_monotone.2.1 cfRoot
      (localState cfRoot 1 0 [Change.insert 'a']) 1 0 (Change.insert 'a') [] (some 1) 0
      (show cfRoot.apply_local_changes 1 0 [Change.insert 'a']
         = some (localState cfRoot 1 0 [Change.insert 'a'], some 1) from rfl)
      (le_refl 0)
    simpa using h

theorem getLast?_mem {α : Type} {l : List α} {a : α}
    (h : l.getLast? = some a) : a ∈ l := by
  obtain ⟨hne, rfl⟩ := List.mem_getLast?_eq_getLast h
  exact List.getLast_mem hne

theorem causal_mem_log {cf : Chronofold} :
    ∀ {fuel : Nat} {cur : Option Nat} {l : List (Change × Nat)},
      causalListAux cf fuel cur = some l →
      ∀ p ∈ l, cf.log.get? p.2 = some p.1 := by
  intro fuel
  induction fuel with
  | zero =>
    intro cur l h p hp
    cases cur with
    | none =>
      rw [causalListAux] at h
      injection h with h'
      subst h'
      exact absurd hp (by simp)
    | some i => exact absurd h (by rw [causalListAux]; simp)
  | succ fuel ih =>
    intro cur l h p hp
    cases cur with
    | none =>
      rw [causalListAux] at h
      injection h with h'
      subst h'
      exact absurd hp (by simp)
    | some i =>
      rw [causalListAux] at h
      split at h
      next => exact absurd h (by simp)
      next c hg =>
        obtain ⟨l', hrec, hl⟩ := Option.map_eq_some'.mp h
        subst hl
        rcases List.mem_cons.mp hp with h' | h'
        · subst h'; exact hg
        · exact ih hrec p h'

theorem find_last_delete_spec {cf : Chronofold} {r d : Nat}
    (h : cf.find_last_delete r = some (some d)) :
    cf.log.get? d = some Change.delete ∧ cf.references.get d = some r := by
  rw [Chronofold.find_last_delete] at h
  cases hc : cf.iter_causal_from r with
  | none => rw [hc] at h; exact absurd h (by simp)
  | some l =>
    rw [hc] at h
    rw [Option.map_some'] at h
    injection h with h'
    obtain ⟨p, hpl, hpd⟩ := Option.map_eq_some'.mp h'
    have hpf := getLast?_mem hpl
    obtain ⟨hmem, hpred⟩ := List.mem_filter.mp hpf
    simp only [decide_eq_true_eq] at hpred
    obtain ⟨hdel, href⟩ := hpred
    have hlog := causal_mem_log hc p (List.mem_of_mem_drop hmem)
    subst hpd
    rw [hdel] at hlog
    exact ⟨hlog, href⟩

/-- C7.  When a session inserts after log index `r` and `find_last_delete`
finds a sibling delete `d` targeting `r`, the newly appended insert stores
`d` as its reference, not `r`: `d` is a `Delete` entry whose reference is
`r`, and `d ≠ r` whenever `r` does not reference itself. -/
theorem claim_c7_insert_references_last_delete {cf cf' : Chronofold}
    {author r d : Nat} {v : Char} {out : Option Nat}
    (hfld : cf.find_last_delete r = some (some d))
    (h : cf.apply_local_changes author r [Change.insert v] = some (cf', out))
    (hself : cf.references.get r ≠ some r) :
    cf'.references.get cf.log.length = some d ∧
    d ≠ r ∧
    cf.log.get? d = some Change.delete ∧
    cf.references.get d = some r := by
  obtain ⟨fld, hfld', -, -, -, -, -, href, -, -⟩ := apply_local_changes_cons h
  rw [hfld] at hfld'
  injection hfld' with hfld2
  subst hfld2
  obtain ⟨hdel, hrefd⟩ := find_last_delete_spec hfld
  refine ⟨?_, ?_, hdel, hrefd⟩
  · rw [href]
    show (cf.references.set cf.log.length (some d)).get cf.log.length = some d
    exact OffsetMap.get_set_self _ _ _
  · intro hdr
    rw [hdr] at hrefd
    exact hself hrefd

/-- C7, witness: push `'!'`, delete it (tombstone at index 2), insert
`'?'` after index 1: the new entry at index 3 references the delete at
index 2, which is a `Delete` targeting index 1. -/
theorem claim_c7_insert_references_last_delete_witness :
    (localState cfBangDel 1 1 [Change.insert '?']).references.get
      cfBangDel.log.length = some 2 ∧
    2 ≠ 1 ∧
    cfBangDel.log.get? 2 = some Change.delete ∧
    cfBangDel.references.get 2 = some 1 :=
  claim_c7_insert_references_last_delete rfl
    (show cfBangDel.apply_local_changes 1 1 [Change.insert '?']
       = some (localState cfBangDel 1 1 [Change.insert '?'], some 3) from rfl)
    (by decide)

theorem apply_ok_log_index_none {cf cf' : Chronofold} {op : Op}
    (h : cf.apply op = .ok cf') : cf.log_index op.id = none := by
  rw [Chronofold.apply] at h
  split at h
  next => exact absurd h (by simp)
  next hns => exact Option.not_isSome_iff_eq_none.mp hns

theorem find?_eq_some_of_unique {l : List Nat} {p : Nat → Bool} {i : Nat}
    (hi : i ∈ l) (hp : p i = true) (huniq : ∀ j ∈ l, p j = true → j = i) :
    l.find? p = some i := by
  induction l with
  | nil => exact absurd hi (by simp)
  | cons x xs ih =>
    rw [List.find?_cons]
    cases hx : p x with
    | true =>
      have : x = i := huniq x (List.mem_cons_self _ _) hx
      rw [this]
    | false =>
      have hxi : x ≠ i := fun hc => by rw [hc, hp] at hx; exact absurd hx (by simp)
      have hi' : i ∈ xs := by
        rcases List.mem_cons.mp hi with h' | h'
        · exact absurd h'.symm hxi
        · exact h'
      exact ih hi' (fun j hj hpj => huniq j (List.mem_cons_of_mem _ hj) hpj)

theorem rfm_set_keys_sub {m : RangeFromMap} {k v : Nat} {q : Nat × Nat}
    (h : q ∈ (m.set k v).map) : q ∈ m.map ∨ q.1 = k := by
  rw [RangeFromMap.set] at h
  split at h
  · exact Or.inl h
  · rcases List.mem_cons.mp h with h' | h'
    · right; rw [h']
    · left
      simp only [alErase, List.mem_filter] at h'
      exact h'.1

theorem log_index_isSome_of_ts {cf : Chronofold} {i : Nat} {t : Timestamp}
    (hi : i < cf.log.length) (hts : cf.timestamp i = some t) (hle : t.li ≤ i) :
    (cf.log_index t).isSome := by
  rw [Chronofold.log_index, List.find?_isSome]
  exact ⟨i, by rw [List.mem_range'_1]; omega, by simp [hts]⟩

theorem timestamp_batch_entry {cf cf' : Chronofold} {author : Nat} {j : Nat}
    (hau : cf'.authors = cf.authors.set cf.log.length author)
    (hsh : cf'.index_shifts = cf.index_shifts.set cf.log.length 0)
    (hka : ∀ q ∈ cf.authors.map, q.1 < cf.log.length)
    (hks : ∀ q ∈ cf.index_shifts.map, q.1 < cf.log.length)
    (hj : cf.log.length ≤ j) :
    cf'.timestamp j = some ⟨j, author⟩ := by
  rw [Chronofold.timestamp, hau, hsh,
    RangeFromMap.get_set_ge _ _ _ _ hks hj,
    RangeFromMap.get_set_ge _ _ _ _ hka hj]
  show some (⟨j - 0, author⟩ : Timestamp) = some ⟨j, author⟩
  simp

theorem reachable_ts_inv {cf : Chronofold} (h : Reachable cf) :
    (∀ q ∈ cf.authors.map, q.1 < cf.log.length) ∧
    (∀ q ∈ cf.index_shifts.map, q.1 < cf.log.length) ∧
    (∀ i, i < cf.log.length → ∃ t : Timestamp, cf.timestamp i = some t ∧
      t.li ≤ i ∧ (∀ j, j < cf.log.length → cf.timestamp j = some t → j = i)) := by
  induction h with
  | empty => exact ⟨by simp [emptyChronofold], by simp [emptyChronofold], by simp [emptyChronofold]⟩
  | applyStep hre hap ih =>
    rename_i cf0 cf1 op
    obtain ⟨hka, hks, hts⟩ := ih
    obtain ⟨refIdx, n, hac⟩ := apply_ok_apply_change hap
    obtain ⟨-, hle, hlog, -, hau, hsh, -, -⟩ := apply_change_fields hac
    have hnone : cf0.log_index op.id = none := apply_ok_log_index_none hap
    have hlen : cf1.log.length = cf0.log.length + 1 := by rw [hlog]; simp
    have hold : ∀ j, j < cf0.log.length → cf1.timestamp j = cf0.timestamp j := by
      intro j hj
      rw [Chronofold.timestamp, Chronofold.timestamp, hau, hsh,
        RangeFromMap.get_set_lt _ _ _ _ hj, RangeFromMap.get_set_lt _ _ _ _ hj]
    have hnew : cf1.timestamp cf0.log.length = some op.id :=
      timestamp_after_apply_change hac
    have hfresh : ∀ j, j < cf0.log.length → cf0.timestamp j ≠ some op.id := by
      intro j hj hc
      obtain ⟨t, ht1, ht2, -⟩ := hts j hj
      rw [ht1] at hc
      injection hc with hc'
      subst hc'
      have := log_index_isSome_of_ts hj ht1 ht2
      rw [hnone] at this
      exact absurd this (by simp)
    refine ⟨?_, ?_, ?_⟩
    · intro q hq
      rw [hau] at hq
      rcases rfm_set_keys_sub hq with h' | h'
      · have := hka q h'; omega
      · omega
    · intro q hq
      rw [hsh] at hq
      rcases rfm_set_keys_sub hq with h' | h'
      · have := hks q h'; omega
      · omega
    · intro i hi
      rw [hlen] at hi
      by_cases hcase : i < cf0.log.length
      · obtain ⟨t, ht1, ht2, ht3⟩ := hts i hcase
        refine ⟨t, by rw [hold i hcase]; exact ht1, ht2, ?_⟩
        intro j hj htj
        rw [hlen] at hj
        by_cases hjc : j < cf0.log.length
        · exact ht3 j hjc (by rw [← hold j hjc]; exact htj)
        · have hjeq : j = cf0.log.length := by omega
          rw [hjeq, hnew] at htj
          injection htj with htj'
          exact absurd (ht1.trans (by rw [htj'])) (hfresh i hcase)
      · have hieq : i = cf0.log.length := by omega
        subst hieq
        refine ⟨op.id, hnew, hle, ?_⟩
        intro j hj htj
        rw [hlen] at hj
        by_cases hjc : j < cf0.log.length
        · exact absurd (by rw [← hold j hjc]; exact htj) (hfresh j hjc)
        · omega
  | localStep hre hnoroot hap ih =>
    rename_i cf0 cf1 author reference changes out
    obtain ⟨hka, hks, hts⟩ := ih
    cases changes with
    | nil =>
      rw [Chronofold.apply_local_changes] at hap
      cases hfld : cf0.find_last_delete reference with
      | none => rw [hfld] at hap; exact absurd hap (by simp)
      | some fld =>
        rw [hfld] at hap
        simp only [] at hap
        injection hap with hap'
        injection hap' with h1 h2
        subst h1
        exact ⟨hka, hks, hts⟩
    | cons first rest =>
      obtain ⟨fld, -, -, hlog, -, hau, hsh, -, -, -⟩ := apply_local_changes_cons hap
      have hlen : cf1.log.length = cf0.log.length + (rest.length + 1) := by
        rw [hlog]; simp
      have hold : ∀ j, j < cf0.log.length → cf1.timestamp j = cf0.timestamp j := by
        intro j hj
        rw [Chronofold.timestamp, Chronofold.timestamp, hau, hsh,
          RangeFromMap.get_set_lt _ _ _ _ hj, RangeFromMap.get_set_lt _ _ _ _ hj]
      have hnew : ∀ j, cf0.log.length ≤ j → cf1.timestamp j = some ⟨j, author⟩ :=
        fun j hj => timestamp_batch_entry hau hsh hka hks hj
      refine ⟨?_, ?_, ?_⟩
      · intro q hq
        rw [hau] at hq
        rcases rfm_set_keys_sub hq with h' | h'
        · have := hka q h'; omega
        · omega
      · intro q hq
        rw [hsh] at hq
        rcases rfm_set_keys_sub hq with h' | h'
        · have := hks q h'; omega
        · omega
      · intro i hi
        by_cases hcase : i < cf0.log.length
        · obtain ⟨t, ht1, ht2, ht3⟩ := hts i hcase
          refine ⟨t, by rw [hold i hcase]; exact ht1, ht2, ?_⟩
          intro j hj htj
          by_cases hjc : j < cf0.log.length
          · exact ht3 j hjc (by rw [← hold j hjc]; exact htj)
          · exfalso
            rw [hnew j (by omega)] at htj
            injection htj with htj'
            have : t.li = j := by rw [← htj']
            omega
        · refine ⟨⟨i, author⟩, hnew i (by omega), le_refl i, ?_⟩
          intro j hj htj
          by_cases hjc : j < cf0.log.length
          · exfalso
            obtain ⟨t, ht1, ht2, -⟩ := hts j hjc
            rw [hold j hjc, ht1] at htj
            injection htj with htj'
            have : t.li = i := by rw [htj']
            omega
          · rw [hnew j (by omega)] at htj
            injection htj with htj'
            have : j = i := by
              have := congrArg Timestamp.li htj'
              simpa using this
            exact this

/-- C8.  In every reachable replica state, reconstructing any entry's
timestamp and resolving it back yields the same log index:
`log_index(timestamp(i)) == Some(i)`.  (Globally unique timestamps are
automatic: `apply` rejects duplicate ids and sessions mint fresh ones.) -/
theorem claim_c8_timestamp_roundtrip {cf : Chronofold} (h : Reachable cf) :
    ∀ i, i < cf.log.length →
      ∃ t : Timestamp, cf.timestamp i = some t ∧ cf.log_index t = some i := by
  intro i hi
  obtain ⟨-, -, hts⟩ := reachable_ts_inv h
  obtain ⟨t, ht1, ht2, ht3⟩ := hts i hi
  refine ⟨t, ht1, ?_⟩
  rw [Chronofold.log_index]
  apply find?_eq_some_of_unique
  · rw [List.mem_range'_1]; omega
  · simp [ht1]
  · intro j hj hpj
    rw [List.mem_range'_1] at hj
    simp only [decide_eq_true_eq] at hpj
    exact ht3 j (by omega) hpj

/-- C8, witness: the replica `cfBang` (root by author 0, then `'!'` by
author 1) is reachable and its entry 1 round-trips. -/
theorem claim_c8_timestamp_roundtrip_witness :
    ∃ t : Timestamp, cfBang.timestamp 1 = some t ∧ cfBang.log_index t = some 1 := by
  have hre : Reachable cfBang :=
    Reachable.localStep
      (Reachable.applyStep Reachable.empty
        (show emptyChronofold.apply (Op.root ⟨0, 0⟩) = .ok cfRoot from rfl))
      (by decide)
      (show cfRoot.apply_local_changes 1 0 [Change.insert '!']
         = some (cfBang, some 1) from rfl)
  exact claim_c8_timestamp_roundtrip hre 1 (by decide)

theorem walkAux_nil_fuel (next : Nat → Option Nat) (s : Option Nat) :
    walkAux next 0 s = [] := by
  cases s <;> rfl

theorem walkAux_none (next : Nat → Option Nat) (fuel : Nat) :
    walkAux next fuel none = [] := by
  cases fuel <;> rfl

theorem walkAux_some (next : Nat → Option Nat) (fuel : Nat) (i : Nat) :
    walkAux next (fuel + 1) (some i) = i :: walkAux next fuel (next i) := rfl

theorem walkAux_length_le (next : Nat → Option Nat) :
    ∀ (fuel : Nat) (s : Option Nat), (walkAux next fuel s).length ≤ fuel := by
  intro fuel
  induction fuel with
  | zero => intro s; rw [walkAux_nil_fuel]; simp
  | succ fuel ih =>
    intro s
    cases s with
    | none => rw [walkAux_none]; simp
    | some i =>
      rw [walkAux_some]
      simpa using ih (next i)

theorem walkAux_congr {next next' : Nat → Option Nat} :
    ∀ {fuel : Nat} {s : Option Nat},
      (∀ i ∈ walkAux next fuel s, next' i = next i) →
      walkAux next' fuel s = walkAux next fuel s := by
  intro fuel
  induction fuel with
  | zero => intro s h; rw [walkAux_nil_fuel, walkAux_nil_fuel]
  | succ fuel ih =>
    intro s h
    cases s with
    | none => rw [walkAux_none, walkAux_none]
    | some i =>
      rw [walkAux_some, walkAux_some]
      have hi : next' i = next i := h i (by rw [walkAux_some]; exact List.mem_cons_self _ _)
      rw [hi]
      have := ih (fun j hj => h j (by rw [walkAux_some]; exact List.mem_cons_of_mem _ hj))
      rw [this]

theorem insertAfter_perm {l : List Nat} {p : Nat} (n : Nat) (h : p ∈ l) :
    (insertAfter l p n).Perm (n :: l) := by
  induction l with
  | nil => exact absurd h (by simp)
  | cons x xs ih =>
    rw [insertAfter]
    by_cases hx : x = p
    · simp only [hx, if_true]
      exact List.Perm.swap _ _ _
    · simp only [hx, if_false]
      rcases List.mem_cons.mp h with h' | h'
      · exact absurd h'.symm hx
      · exact ((ih h').cons x).trans (List.Perm.swap _ _ _)

theorem walk_closed_next {next : Nat → Option Nat} :
    ∀ {fuel : Nat} {s : Option Nat} {i j : Nat},
      (walkAux next fuel s).length < fuel →
      i ∈ walkAux next fuel s → next i = some j →
      j ∈ walkAux next fuel s := by
  intro fuel
  induction fuel with
  | zero => intro s i j hterm hi _; rw [walkAux_nil_fuel] at hi; exact absurd hi (by simp)
  | succ fuel ih =>
    intro s i j hterm hi hnext
    cases s with
    | none => rw [walkAux_none] at hi; exact absurd hi (by simp)
    | some x =>
      rw [walkAux_some] at hterm hi ⊢
      rcases List.mem_cons.mp hi with h' | h'
      · subst h'
        rw [hnext]
        cases fuel with
        | zero =>
          rw [walkAux_nil_fuel] at hterm ⊢
          simp at hterm
        | succ fuel' =>
          rw [walkAux_some]
          exact List.mem_cons_of_mem _ (List.mem_cons_self _ _)
      · have hterm' : (walkAux next fuel (next x)).length < fuel := by
          simp only [List.length_cons] at hterm
          omega
        exact List.mem_cons_of_mem _ (ih hterm' h' hnext)

theorem walk_spliceFun {next : Nat → Option Nat} {p n : Nat} :
    ∀ {fuel : Nat} {s : Option Nat},
      (walkAux next fuel s).length < fuel →
      (walkAux next fuel s).Nodup →
      p ∈ walkAux next fuel s →
      n ∉ walkAux next fuel s →
      s ≠ some n →
      walkAux (spliceFun next p n) (fuel + 1) s
        = insertAfter (walkAux next fuel s) p n := by
  intro fuel
  induction fuel with
  | zero => intro s _ _ hp _ _; rw [walkAux_nil_fuel] at hp; exact absurd hp (by simp)
  | succ fuel ih =>
    intro s hterm hnd hp hn hsn
    cases s with
    | none => rw [walkAux_none] at hp; exact absurd hp (by simp)
    | some i =>
      have hin : i ≠ n := fun hc => hsn (by rw [hc])
      rw [walkAux_some] at hterm hnd hp hn ⊢
      rw [walkAux_some]
      by_cases hip : i = p
      · subst hip
        have hsp : spliceFun next i n i = some n := by
          rw [spliceFun]; simp
        have hsn2 : spliceFun next i n n = next i := by
          rw [spliceFun]
          simp only [hin.symm, if_false]
          simp
        rw [hsp, insertAfter, if_pos rfl]
        rw [show fuel + 1 = fuel + 1 from rfl, walkAux_some, hsn2]
        have hnotin : i ∉ walkAux next fuel (next i) := (List.nodup_cons.mp hnd).1
        have hcongr : walkAux (spliceFun next i n) fuel (next i)
            = walkAux next fuel (next i) := by
          apply walkAux_congr
          intro j hj
          have hjp : j ≠ i := fun hc => hnotin (hc ▸ hj)
          have hjn : j ≠ n := fun hc => hn (List.mem_cons_of_mem _ (hc ▸ hj))
          rw [spliceFun]
          simp [hjp, hjn]
        rw [hcongr]
      · have hpi : p ∈ walkAux next fuel (next i) := by
          rcases List.mem_cons.mp hp with h' | h'
          · exact absurd h'.symm hip
          · exact h'
        have hsi : spliceFun next p n i = next i := by
          rw [spliceFun]
          simp [hip, hin]
        rw [hsi, insertAfter, if_neg hip]
        have hterm' : (walkAux next fuel (next i)).length < fuel := by
          simp only [List.length_cons] at hterm
          omega
        have hnd' : (walkAux next fuel (next i)).Nodup := (List.nodup_cons.mp hnd).2
        have hn' : n ∉ walkAux next fuel (next i) := fun hc => hn (List.mem_cons_of_mem _ hc)
        have hsn' : next i ≠ some n := by
          intro hc
          cases fuel with
          | zero =>
            rw [walkAux_nil_fuel] at hpi
            exact absurd hpi (by simp)
          | succ fuel' =>
            rw [hc, walkAux_some] at hn'
            exact hn' (List.mem_cons_self _ _)
        rw [ih hterm' hnd' hpi hn' hsn']

theorem range_append_range' (m n : Nat) :
    List.range (m + n) = List.range m ++ List.range' m n := by
  rw [List.range_eq_range', List.range_eq_range']
  have := List.range'_append 0 m n 1
  rw [Nat.add_comm m n]
  simpa using this.symm

theorem walk_head_mem {next : Nat → Option Nat} {fuel : Nat} {x : Nat}
    (hfe : walkAux next fuel (some x) ≠ []) :
    x ∈ walkAux next fuel (some x) := by
  cases fuel with
  | zero => rw [walkAux_nil_fuel] at hfe; exact absurd rfl hfe
  | succ fuel => rw [walkAux_some]; exact List.mem_cons_self _ _

theorem walk_chainFun {g : Nat → Option Nat} {p a : Nat} :
    ∀ (k : Nat) {fuel : Nat} {s : Option Nat},
      (walkAux g fuel s).length < fuel →
      (walkAux g fuel s).Nodup →
      p ∈ walkAux g fuel s →
      (∀ x ∈ walkAux g fuel s, x < a) →
      (walkAux (chainFun g p a k) (fuel + k + 1) s).Perm
        (List.range' a (k + 1) ++ walkAux g fuel s) := by
  intro k
  induction k generalizing g a with
  | zero =>
    intro fuel s hterm hnd hp hlt
    have hW : walkAux g fuel s ≠ [] := by
      intro hc
      rw [hc] at hp
      exact absurd hp (by simp)
    have hsn : s ≠ some a := by
      intro hc
      subst hc
      exact absurd rfl (Nat.ne_of_lt (hlt _ (walk_head_mem hW))).symm
    have hn : a ∉ walkAux g fuel s := fun hc => absurd rfl (Nat.ne_of_lt (hlt _ hc)).symm
    have hfe : chainFun g p a 0 = spliceFun g p a := by
      funext i
      simp only [chainFun, spliceFun]
      by_cases hip : i = p
      · simp [hip]
      · by_cases hia : i = a
        · simp [hip, hia]
        · simp only [hip, if_false, hia]
          split
          next hc => exact absurd (by omega) hia
          next => rfl
    rw [hfe]
    have := walk_spliceFun hterm hnd hp hn hsn
    rw [this, List.range'_one]
    exact insertAfter_perm a hp
  | succ k ih =>
    intro fuel s hterm hnd hp hlt
    have hW : walkAux g fuel s ≠ [] := by
      intro hc
      rw [hc] at hp
      exact absurd hp (by simp)
    have hpa : p < a := hlt p hp
    have hfe : chainFun g p a (k + 1) = spliceFun (chainFun g p (a + 1) k) p a := by
      funext i
      simp only [chainFun, spliceFun]
      by_cases hip : i = p
      · simp [hip]
      · by_cases hia : i = a
        · have h1 : a ≤ i ∧ i ≤ a + (k + 1) := by omega
          have h2 : i < a + (k + 1) := by omega
          simp [hip, hia, h1, h2]
        · by_cases hrange : a + 1 ≤ i ∧ i ≤ a + 1 + k
          · have h1 : a ≤ i ∧ i ≤ a + (k + 1) := by omega
            have h2 : (i < a + (k + 1)) ↔ (i < a + 1 + k) := by omega
            simp only [hip, if_false, h1, and_true, if_true, hia, hrange]
            simp [h2]
          · have h1 : ¬(a ≤ i ∧ i ≤ a + (k + 1)) := by omega
            simp [hip, hia, h1, hrange]
    rw [hfe]
    have hlt' : ∀ x ∈ walkAux g fuel s, x < a + 1 := fun x hx => by
      have := hlt x hx; omega
    have hWk := ih hterm hnd hp hlt'
    have hlenW : (walkAux g fuel s).length < fuel := hterm
    have hWk_len : (walkAux (chainFun g p (a + 1) k) (fuel + k + 1) s).length
        < fuel + k + 1 := by
      rw [hWk.length_eq]
      simp only [List.length_append, List.length_range']
      omega
    have hWk_nd : (walkAux (chainFun g p (a + 1) k) (fuel + k + 1) s).Nodup := by
      rw [hWk.nodup_iff]
      refine List.Nodup.append (List.nodup_range' _ _ 1 (by omega)) hnd ?_
      intro x hx1 hx2
      rw [List.mem_range'_1] at hx1
      have := hlt x hx2
      omega
    have hWk_p : p ∈ walkAux (chainFun g p (a + 1) k) (fuel + k + 1) s := by
      rw [hWk.mem_iff]
      exact List.mem_append_right _ hp
    have hWk_a : a ∉ walkAux (chainFun g p (a + 1) k) (fuel + k + 1) s := by
      rw [hWk.mem_iff]
      intro hc
      rcases List.mem_append.mp hc with hc' | hc'
      · rw [List.mem_range'_1] at hc'
        omega
      · have := hlt a hc'
        omega
    have hsn : s ≠ some a := by
      intro hc
      subst hc
      exact absurd rfl (Nat.ne_of_lt (hlt _ (walk_head_mem hW))).symm
    have hsplice := walk_spliceFun hWk_len hWk_nd hWk_p hWk_a hsn
    have hfuel : fuel + (k + 1) + 1 = (fuel + k + 1) + 1 := by omega
    rw [hfuel, hsplice]
    have hperm1 := insertAfter_perm a hWk_p
    refine hperm1.trans ?_
    have : List.range' a (k + 1 + 1) = a :: List.range' (a + 1) (k + 1) := by
      exact List.range'_succ a (k + 1) 1
    rw [this]
    exact (hWk.cons a)

theorem OffsetMap.set_dflt (m : OffsetMap) (k : Nat) (v : Option Nat) :
    (m.set k v).dflt = m.dflt := by
  cases v with
  | none => rfl
  | some v =>
    simp only [OffsetMap.set]
    by_cases hd : usizeOfInt ((k : Int) + m.dflt) = v <;> simp [hd]

theorem om_set_keys_sub {m : OffsetMap} {k : Nat} {v : Option Nat}
    {q : Nat × Option Int} (h : q ∈ (m.set k v).map) : q ∈ m.map ∨ q.1 = k := by
  cases v with
  | none =>
    simp only [OffsetMap.set] at h
    rcases List.mem_cons.mp h with h' | h'
    · right; rw [h']
    · left; simp only [alErase, List.mem_filter] at h'; exact h'.1
  | some v =>
    simp only [OffsetMap.set] at h
    by_cases hd : usizeOfInt ((k : Int) + m.dflt) = v
    · simp only [hd, if_true] at h
      left; simp only [alErase, List.mem_filter] at h; exact h.1
    · simp only [hd, if_false] at h
      rcases List.mem_cons.mp h with h' | h'
      · right; rw [h']
      · left; simp only [alErase, List.mem_filter] at h'; exact h'.1

theorem alLookup_none_of_keys {α : Type} {l : List (Nat × α)} {c i : Nat}
    (hkeys : ∀ q ∈ l, q.1 < c) (hi : c ≤ i) : alLookup l i = none := by
  induction l with
  | nil => rfl
  | cons q rest ih =>
    have hq : q.1 < c := hkeys q (List.mem_cons_self _ _)
    rcases q with ⟨qk, qv⟩
    have hne : qk ≠ i := by simp only [] at hq; omega
    simp only [alLookup, hne, if_false]
    exact ih (fun r hr => hkeys r (List.mem_cons_of_mem _ hr))

theorem om_get_default_of_keys {m : OffsetMap} {c i : Nat}
    (hd : m.dflt = 1) (hkeys : ∀ q ∈ m.map, q.1 < c) (hi : c ≤ i) :
    m.get i = some (i + 1) := by
  rw [OffsetMap.get, alLookup_none_of_keys hkeys hi, hd, usizeOfInt_add_one]

theorem apply_change_next {cf cf' : Chronofold} {id : Timestamp}
    {reference : Option Nat} {change : Change} {n : Nat}
    (h : cf.apply_change id reference change = some (cf', n)) :
    ∃ pred, cf.find_predecessor id reference change = some pred ∧
      cf'.next_indices = (match pred with
        | some p => (cf.next_indices.set p (some cf.log.length)).set
            cf.log.length (cf.next_indices.get p)
        | none => cf.next_indices.set cf.log.length none) := by
  unfold Chronofold.apply_change at h
  cases hfp : cf.find_predecessor id reference change with
  | none => rw [hfp] at h; exact absurd h (by simp)
  | some pred =>
    rw [hfp] at h
    simp only [] at h
    split at h
    next hle =>
      injection h with h'
      injection h' with h1 h2
      subst h1
      refine ⟨pred, rfl, ?_⟩
      cases pred with
      | some p => rfl
      | none => rfl
    next => exact absurd h (by simp)

theorem log_index_lt {cf : Chronofold} {t : Timestamp} {i : Nat}
    (h : cf.log_index t = some i) : t.li ≤ i ∧ i < cf.log.length := by
  rw [Chronofold.log_index] at h
  have hmem := List.mem_of_find?_eq_some h
  rw [List.mem_range'_1] at hmem
  omega

theorem chainFun_zero (g : Nat → Option Nat) (p a : Nat) :
    chainFun g p a 0 = spliceFun g p a := by
  funext i
  simp only [chainFun, spliceFun]
  by_cases hip : i = p
  · simp [hip]
  · by_cases hia : i = a
    · simp [hip, hia]
    · simp only [hip, if_false, hia]
      split
      next hc => exact absurd (by omega) hia
      next => rfl

theorem next_get_splice {m : OffsetMap} {p n : Nat} (hpn : p ≠ n) (i : Nat) :
    ((m.set p (some n)).set n (m.get p)).get i
      = spliceFun (fun j => m.get j) p n i := by
  rw [spliceFun]
  by_cases hip : i = p
  · subst hip
    rw [if_pos rfl, OffsetMap.get_set_ne _ _ _ _ hpn, OffsetMap.get_set_self]
  · by_cases hin : i = n
    · subst hin
      rw [if_neg hip, if_pos rfl, OffsetMap.get_set_self]
    · rw [if_neg hip, if_neg hin, OffsetMap.get_set_ne _ _ _ _ hin,
        OffsetMap.get_set_ne _ _ _ _ hip]

theorem next_get_chain {m : OffsetMap} {p a k : Nat} (hd : m.dflt = 1)
    (hkeys : ∀ q ∈ m.map, q.1 < a) (hpa : p < a) (i : Nat) :
    ((m.set p (some a)).set (a + k) (m.get p)).get i
      = chainFun (fun j => m.get j) p a k i := by
  rw [chainFun]
  by_cases hip : i = p
  · subst hip
    rw [if_pos rfl, OffsetMap.get_set_ne _ _ _ _ (by omega), OffsetMap.get_set_self]
  · by_cases hik : i = a + k
    · subst hik
      rw [if_neg hip, if_pos (by omega), if_neg (by omega), OffsetMap.get_set_self]
    · by_cases hmid : a ≤ i ∧ i ≤ a + k
      · have hlt : i < a + k := by omega
        rw [if_neg hip, if_pos hmid, if_pos hlt,
          OffsetMap.get_set_ne _ _ _ _ hik, OffsetMap.get_set_ne _ _ _ _ hip]
        exact om_get_default_of_keys hd hkeys hmid.1
      · rw [if_neg hip, if_neg hmid,
          OffsetMap.get_set_ne _ _ _ _ hik, OffsetMap.get_set_ne _ _ _ _ hip]

theorem filterPanicAux_sub {cf : Chronofold} {id : Timestamp} :
    ∀ {l kept : List (Change × Nat)},
      filterPanicAux cf id l = some kept → ∀ q ∈ kept, q ∈ l := by
  intro l
  induction l with
  | nil =>
    intro kept h q hq
    rw [filterPanicAux] at h
    injection h with h'
    subst h'
    exact absurd hq (by simp)
  | cons x xs ih =>
    intro kept h q hq
    rw [filterPanicAux] at h
    split at h
    next => exact absurd h (by simp)
    next =>
      obtain ⟨l', hrec, hl⟩ := Option.map_eq_some'.mp h
      subst hl
      rcases List.mem_cons.mp hq with h' | h'
      · subst h'; exact List.mem_cons_self _ _
      · exact List.mem_cons_of_mem _ (ih hrec q h')
    next => exact List.mem_cons_of_mem _ (ih h q hq)

theorem subtreeAux_sub {cf : Chronofold} {root : Nat} :
    ∀ {l : List (Change × Nat)} {acc : List Nat} {x : Nat},
      x ∈ subtreeAux cf root l acc → x ∈ acc ∨ ∃ c, (c, x) ∈ l := by
  intro l
  induction l with
  | nil =>
    intro acc x h
    rw [subtreeAux] at h
    exact Or.inl h
  | cons q rest ih =>
    intro acc x h
    rcases q with ⟨c0, idx⟩
    rw [subtreeAux] at h
    split at h
    · rcases ih h with h' | h'
      · rcases List.mem_append.mp h' with h2 | h2
        · exact Or.inl h2
        · right
          refine ⟨c0, ?_⟩
          have : x = idx := by simpa using h2
          rw [this]
          exact List.mem_cons_self _ _
      · obtain ⟨c, hc⟩ := h'
        exact Or.inr ⟨c, List.mem_cons_of_mem _ hc⟩
    · rcases ih h with h' | h'
      · exact Or.inl h'
      · obtain ⟨c, hc⟩ := h'
        exact Or.inr ⟨c, List.mem_cons_of_mem _ hc⟩

theorem subtreeAux_acc_prefix {cf : Chronofold} {root : Nat} :
    ∀ (l : List (Change × Nat)) (acc : List Nat),
      ∃ ext, subtreeAux cf root l acc = acc ++ ext := by
  intro l
  induction l with
  | nil => intro acc; exact ⟨[], by rw [subtreeAux]; simp⟩
  | cons q rest ih =>
    intro acc
    rcases q with ⟨c0, idx⟩
    rw [subtreeAux]
    split
    · obtain ⟨ext, hext⟩ := ih (acc ++ [idx])
      exact ⟨idx :: ext, by rw [hext]; simp⟩
    · exact ih acc

theorem causal_mem_walk {cf : Chronofold} {fuel0 : Nat} {s0 : Option Nat}
    (hterm : (walkAux (fun i => cf.next_indices.get i) fuel0 s0).length < fuel0) :
    ∀ {fuel : Nat} {cur : Option Nat} {l : List (Change × Nat)},
      causalListAux cf fuel cur = some l →
      (∀ x, cur = some x → x ∈ walkAux (fun i => cf.next_indices.get i) fuel0 s0) →
      ∀ q ∈ l, q.2 ∈ walkAux (fun i => cf.next_indices.get i) fuel0 s0 := by
  intro fuel
  induction fuel with
  | zero =>
    intro cur l h hcur q hq
    cases cur with
    | none =>
      rw [causalListAux] at h
      injection h with h'
      subst h'
      exact absurd hq (by simp)
    | some i => exact absurd h (by rw [causalListAux]; simp)
  | succ fuel ih =>
    intro cur l h hcur q hq
    cases cur with
    | none =>
      rw [causalListAux] at h
      injection h with h'
      subst h'
      exact absurd hq (by simp)
    | some i =>
      rw [causalListAux] at h
      split at h
      next => exact absurd h (by simp)
      next c hg =>
        obtain ⟨l', hrec, hl⟩ := Option.map_eq_some'.mp h
        subst hl
        have hiw : i ∈ walkAux (fun i => cf.next_indices.get i) fuel0 s0 :=
          hcur i rfl
        rcases List.mem_cons.mp hq with h' | h'
        · subst h'; exact hiw
        · refine ih hrec ?_ q h'
          intro x hx
          rw [Chronofold.index_after] at hx
          exact walk_closed_next hterm hiw hx

theorem apply_ok_apply_change_ref {cf cf' : Chronofold} {op : Op}
    (h : cf.apply op = .ok cf') :
    ∃ refIdx n, cf.apply_change op.id refIdx op.payload.toChange = some (cf', n) ∧
      (refIdx = none ↔ op.payload.reference = none) ∧
      (∀ r, refIdx = some r → ∃ t, op.payload.reference = some t ∧
        cf.log_index t = some r) := by
  rw [Chronofold.apply] at h
  split at h
  next => exact absurd h (by simp)
  next =>
    rcases op with ⟨oid, pl⟩
    cases pl with
    | root =>
      cases hac : Chronofold.apply_change cf oid none OpPayload.root.toChange with
      | none =>
        rw [show (Op.mk oid OpPayload.root).payload.reference = none from rfl] at h
        simp only [hac] at h
        exact absurd h (by simp)
      | some p =>
        rcases p with ⟨cf2, n⟩
        rw [show (Op.mk oid OpPayload.root).payload.reference = none from rfl] at h
        simp only [hac] at h
        injection h with h2
        subst h2
        exact ⟨none, n, hac, by simp [OpPayload.reference], by simp⟩
    | insert ref v =>
      cases ref with
      | none =>
        cases hac : Chronofold.apply_change cf oid none (OpPayload.insert none v).toChange with
        | none =>
          simp only [OpPayload.reference, hac] at h
          exact absurd h (by simp)
        | some p =>
          rcases p with ⟨cf2, n⟩
          simp only [OpPayload.reference, hac] at h
          injection h with h2
          subst h2
          exact ⟨none, n, hac, by simp [OpPayload.reference], by simp⟩
      | some t =>
        simp only [OpPayload.reference] at h
        cases hli : cf.log_index t with
        | none =>
          simp only [hli] at h
          exact absurd h (by simp)
        | some r =>
          simp only [hli] at h
          cases hac : Chronofold.apply_change cf oid (some r) (OpPayload.insert (some t) v).toChange with
          | none =>
            simp only [hac] at h
            exact absurd h (by simp)
          | some p =>
            rcases p with ⟨cf2, n⟩
            simp only [hac] at h
            injection h with h2
            subst h2
            refine ⟨some r, n, hac, by simp [OpPayload.reference], ?_⟩
            intro r' hr'
            injection hr' with hr2
            subst hr2
            exact ⟨t, rfl, hli⟩
    | delete t =>
      simp only [OpPayload.reference] at h
      cases hli : cf.log_index t with
      | none =>
        simp only [hli] at h
        exact absurd h (by simp)
      | some r =>
        simp only [hli] at h
        cases hac : Chronofold.apply_change cf oid (some r) (OpPayload.delete t).toChange with
        | none =>
          simp only [hac] at h
          exact absurd h (by simp)
        | some p =>
          rcases p with ⟨cf2, n⟩
          simp only [hac] at h
          injection h with h2
          subst h2
          refine ⟨some r, n, hac, by simp [OpPayload.reference], ?_⟩
          intro r' hr'
          injection hr' with hr2
          subst hr2
          exact ⟨t, rfl, hli⟩

theorem skipRoot_mem_walk {cf : Chronofold} {fuel0 : Nat} {s0 : Option Nat}
    (hterm : (walkAux (fun i => cf.next_indices.get i) fuel0 s0).length < fuel0)
    {r : Nat} (hr : r ∈ walkAux (fun i => cf.next_indices.get i) fuel0 s0) :
    ∀ x, cf.skipRoot (some r) = some x →
      x ∈ walkAux (fun i => cf.next_indices.get i) fuel0 s0 := by
  intro x hx
  rw [Chronofold.skipRoot] at hx
  split at hx
  · rw [Chronofold.index_after] at hx
    exact walk_closed_next hterm hr hx
  · injection hx with hx'
    subst hx'
    exact hr

theorem iter_causal_from_mem_walk {cf : Chronofold} {fuel0 : Nat} {s0 : Option Nat}
    (hterm : (walkAux (fun i => cf.next_indices.get i) fuel0 s0).length < fuel0)
    {r : Nat} (hr : r ∈ walkAux (fun i => cf.next_indices.get i) fuel0 s0)
    {l : List (Change × Nat)} (hl : cf.iter_causal_from r = some l) :
    ∀ q ∈ l, q.2 ∈ walkAux (fun i => cf.next_indices.get i) fuel0 s0 := by
  rw [Chronofold.iter_causal_from] at hl
  refine causal_mem_walk hterm hl ?_
  intro x hx
  exact skipRoot_mem_walk hterm hr x hx

theorem find_predecessor_mem_walk {cf : Chronofold} {id : Timestamp} {r : Nat}
    {change : Change} {p : Nat} {fuel0 : Nat} {s0 : Option Nat}
    (hterm : (walkAux (fun i => cf.next_indices.get i) fuel0 s0).length < fuel0)
    (hr : r ∈ walkAux (fun i => cf.next_indices.get i) fuel0 s0)
    (hfp : cf.find_predecessor id (some r) change = some (some p)) :
    p ∈ walkAux (fun i => cf.next_indices.get i) fuel0 s0 := by
  cases change with
  | delete =>
    simp only [Chronofold.find_predecessor] at hfp
    injection hfp with hfp'
    injection hfp' with hfp2
    subst hfp2
    exact hr
  | root =>
    simp only [Chronofold.find_predecessor] at hfp
    exact absurd hfp (by simp)
  | insert v =>
    simp only [Chronofold.find_predecessor] at hfp
    split at hfp
    next => exact absurd hfp (by simp)
    next l hl =>
      split at hfp
      next => exact absurd hfp (by simp)
      next kept hkept =>
        split at hfp
        next c idx hlast =>
          cases hsub : cf.iter_subtree idx with
          | none => rw [hsub] at hfp; exact absurd hfp (by simp)
          | some sub =>
            rw [hsub] at hfp
            rw [Option.map_some'] at hfp
            injection hfp with hfp'
            have hpsub : p ∈ sub := by
              cases hgl : sub.getLast? with
              | none => rw [hgl] at hfp'; exact absurd hfp' (by simp)
              | some q =>
                rw [hgl] at hfp'
                injection hfp' with hfp2
                subst hfp2
                exact getLast?_mem hgl
            have hidx : idx ∈ walkAux (fun i => cf.next_indices.get i) fuel0 s0 := by
              have h1 : (c, idx) ∈ kept := getLast?_mem hlast
              have h2 := filterPanicAux_sub hkept _ h1
              have h3 : (c, idx) ∈ l := List.mem_filter.mp h2 |>.1
              exact iter_causal_from_mem_walk hterm hr hl _ h3
            rw [Chronofold.iter_subtree] at hsub
            cases hcl : cf.iter_causal_from idx with
            | none => rw [hcl] at hsub; exact absurd hsub (by simp)
            | some lsub =>
              rw [hcl] at hsub
              rw [Option.map_some'] at hsub
              injection hsub with hsub'
              subst hsub'
              rcases subtreeAux_sub hpsub with h' | h'
              · exact absurd h' (by simp)
              · obtain ⟨c', hc'⟩ := h'
                exact iter_causal_from_mem_walk hterm hidx hcl _ hc'
        next hlast =>
          injection hfp with hfp'
          injection hfp' with hfp2
          subst hfp2
          exact hr

theorem causalListAux_cons_shape {cf : Chronofold} {fuel : Nat} {i : Nat}
    {l : List (Change × Nat)}
    (h : causalListAux cf (fuel + 1) (some i) = some l) :
    ∃ c rest, cf.log.get? i = some c ∧ l = (c, i) :: rest := by
  rw [causalListAux] at h
  split at h
  next => exact absurd h (by simp)
  next c hg =>
    obtain ⟨l', hrec, hl⟩ := Option.map_eq_some'.mp h
    exact ⟨c, l', hg, hl.symm⟩

theorem skipRoot_of_not_root {cf : Chronofold} {idx : Nat}
    (h : cf.log.get? idx ≠ some Change.root) :
    cf.skipRoot (some idx) = some idx := by
  rw [Chronofold.skipRoot]
  simp only [h, if_false]

theorem iter_subtree_ne_nil {cf : Chronofold} {idx : Nat} {sub : List Nat}
    (hroot : cf.log.get? idx ≠ some Change.root)
    (hsub : cf.iter_subtree idx = some sub) : sub ≠ [] := by
  rw [Chronofold.iter_subtree] at hsub
  cases hcl : cf.iter_causal_from idx with
  | none => rw [hcl] at hsub; exact absurd hsub (by simp)
  | some lsub =>
    rw [hcl, Option.map_some'] at hsub
    injection hsub with hsub'
    rw [Chronofold.iter_causal_from, skipRoot_of_not_root hroot] at hcl
    obtain ⟨c, rest, hg, hl⟩ := causalListAux_cons_shape hcl
    subst hl
    rw [subtreeAux] at hsub'
    rw [if_pos (by simp)] at hsub'
    obtain ⟨ext, hext⟩ := subtreeAux_acc_prefix rest ([] ++ [idx])
    rw [hext] at hsub'
    subst hsub'
    simp

theorem find_predecessor_isSome_of_ref {cf : Chronofold} {id : Timestamp}
    {r : Nat} {change : Change} {pred : Option Nat}
    (hE : ∀ i, cf.log.get? i = some Change.root → cf.references.get i = none)
    (hfp : cf.find_predecessor id (some r) change = some pred) :
    ∃ p, pred = some p := by
  cases change with
  | delete =>
    simp only [Chronofold.find_predecessor] at hfp
    injection hfp with hfp'
    exact ⟨r, hfp'.symm⟩
  | root =>
    simp only [Chronofold.find_predecessor] at hfp
    exact absurd hfp (by simp)
  | insert v =>
    simp only [Chronofold.find_predecessor] at hfp
    split at hfp
    next => exact absurd hfp (by simp)
    next l hl =>
      split at hfp
      next => exact absurd hfp (by simp)
      next kept hkept =>
        split at hfp
        next c idx hlast =>
          cases hsub : cf.iter_subtree idx with
          | none => rw [hsub] at hfp; exact absurd hfp (by simp)
          | some sub =>
            rw [hsub, Option.map_some'] at hfp
            injection hfp with hfp'
            have hrootc : cf.log.get? idx ≠ some Change.root := by
              intro hc
              have h1 : (c, idx) ∈ kept := getLast?_mem hlast
              have h2 := filterPanicAux_sub hkept _ h1
              have h3 := List.mem_filter.mp h2 |>.2
              simp only [decide_eq_true_eq] at h3
              rw [hE idx hc] at h3
              exact absurd h3 (by simp)
            have hne := iter_subtree_ne_nil hrootc hsub
            obtain ⟨q, hq⟩ := Option.isSome_iff_exists.mp (List.getLast?_isSome.mpr hne)
            rw [hq] at hfp'
            exact ⟨q, hfp'.symm⟩
        next hlast =>
          injection hfp with hfp'
          exact ⟨r, hfp'.symm⟩

theorem get?_some_lt {α : Type} {l : List α} {n : Nat} {a : α}
    (h : l.get? n = some a) : n < l.length := by
  by_contra hc
  rw [List.get?_eq_none.mpr (by omega)] at h
  exact absurd h (by simp)

theorem find_predecessor_none_ref {cf : Chronofold} {id : Timestamp}
    {change : Change} {pred : Option Nat}
    (h : cf.find_predecessor id none change = some pred) : pred = none := by
  cases change with
  | delete =>
    simp only [Chronofold.find_predecessor] at h
    injection h with h'
    exact h'.symm
  | root =>
    simp only [Chronofold.find_predecessor] at h
    injection h with h'
    exact h'.symm
  | insert v =>
    simp only [Chronofold.find_predecessor] at h
    exact absurd h (by simp)

theorem iter_causal_from_some_lt {cf : Chronofold} {r : Nat}
    {l : List (Change × Nat)} (h : cf.iter_causal_from r = some l) :
    r < cf.log.length := by
  by_cases hg : ∃ c, cf.log.get? r = some c
  · obtain ⟨c, hc⟩ := hg
    exact get?_some_lt hc
  · push_neg at hg
    have hnone : cf.log.get? r = none := Option.eq_none_iff_forall_not_mem.mpr
      (fun c hc => hg c hc)
    rw [Chronofold.iter_causal_from] at h
    rw [Chronofold.skipRoot] at h
    rw [if_neg (by rw [hnone]; simp)] at h
    rw [causalListAux] at h
    rw [hnone] at h
    exact absurd h (by simp)

theorem srr_inv {cf : Chronofold} (h : SingleRootReachable cf) :
    cf.root = 0 ∧
    cf.next_indices.dflt = 1 ∧
    (∀ q ∈ cf.next_indices.map, q.1 < cf.log.length) ∧
    (∀ i, cf.log.get? i = some Change.root → cf.references.get i = none) ∧
    (cf.causal_walk).Perm (List.range cf.log.length) := by
  induction h with
  | empty =>
    refine ⟨rfl, rfl, by simp [emptyChronofold], ?_, ?_⟩
    · intro i hi
      simp [emptyChronofold] at hi
    · simp [Chronofold.causal_walk, emptyChronofold]
  | applyStep hre hap hroot ih =>
    rename_i cf0 cf1 op
    obtain ⟨hroot0, hdflt0, hkeys0, hE0, hperm0⟩ := ih
    obtain ⟨refIdx, n, hac, hrefnone, hrefsome⟩ := apply_ok_apply_change_ref hap
    obtain ⟨hn, hle, hlog, hrootf, hau, hsh, href, hver⟩ := apply_change_fields hac
    obtain ⟨pred, hfp, hnext⟩ := apply_change_next hac
    have hlen1 : cf1.log.length = cf0.log.length + 1 := by rw [hlog]; simp
    have hroot1 : cf1.root = 0 := by rw [hrootf, hroot0]
    have hE1 : ∀ i, cf1.log.get? i = some Change.root →
        cf1.references.get i = none := by
      intro i hi
      by_cases hilt : i < cf0.log.length
      · have hlog0 : cf0.log.get? i = some Change.root := by
          rw [hlog] at hi
          rwa [List.get?_append hilt] at hi
        rw [href, OffsetMap.get_set_ne _ _ _ _ (by omega)]
        exact hE0 i hlog0
      · have hi1 : i < cf1.log.length := get?_some_lt hi
        have hieq : i = cf0.log.length := by omega
        subst hieq
        rw [hlog, List.get?_concat_length] at hi
        injection hi with hch
        have hpl : op.payload = OpPayload.root := by
          rcases op with ⟨oid, pl⟩
          cases pl with
          | root => rfl
          | insert r v => exact absurd hch.symm (by simp [OpPayload.toChange])
          | delete r => exact absurd hch.symm (by simp [OpPayload.toChange])
        have hrefn : refIdx = none := hrefnone.mpr (by rw [hpl]; rfl)
        rw [href, hrefn, OffsetMap.get_set_self]
    cases pred with
    | some p =>
      -- the reference must be resolved: a `none` reference yields a `none`
      -- predecessor
      have hrsome : ∃ r, refIdx = some r := by
        cases hri : refIdx with
        | none =>
          rw [hri] at hfp
          have := find_predecessor_none_ref hfp
          exact absurd this (by simp)
        | some r => exact ⟨r, rfl⟩
      obtain ⟨r, hri⟩ := hrsome
      subst hri
      obtain ⟨t, -, hlir⟩ := hrefsome r rfl
      have hrlt : r < cf0.log.length := (log_index_lt hlir).2
      have hlen0pos : 0 < cf0.log.length := by omega
      have hne0 : cf0.log.isEmpty = false := by
        cases hz : cf0.log.isEmpty
        · rfl
        · rw [List.isEmpty_iff] at hz
          rw [hz] at hlen0pos
          simp at hlen0pos
      have hwalk0 : cf0.causal_walk
          = walkAux (fun i => cf0.next_indices.get i) (cf0.log.length + 1)
            (some cf0.root) := by
        rw [Chronofold.causal_walk, hne0]
        simp
      rw [hwalk0, hroot0] at hperm0
      have hterm0 : (walkAux (fun i => cf0.next_indices.get i)
          (cf0.log.length + 1) (some 0)).length < cf0.log.length + 1 := by
        rw [hperm0.length_eq, List.length_range]
        omega
      have hmem0 : ∀ x, x ∈ walkAux (fun i => cf0.next_indices.get i)
          (cf0.log.length + 1) (some 0) ↔ x < cf0.log.length := by
        intro x
        rw [hperm0.mem_iff, List.mem_range]
      have hrW : r ∈ walkAux (fun i => cf0.next_indices.get i)
          (cf0.log.length + 1) (some 0) := (hmem0 r).mpr hrlt
      have hpW := find_predecessor_mem_walk hterm0 hrW hfp
      have hplt : p < cf0.log.length := (hmem0 p).mp hpW
      refine ⟨hroot1, ?_, ?_, hE1, ?_⟩
      · rw [hnext]
        show ((cf0.next_indices.set p (some cf0.log.length)).set cf0.log.length
          (cf0.next_indices.get p)).dflt = 1
        rw [OffsetMap.set_dflt, OffsetMap.set_dflt, hdflt0]
      · intro q hq
        rw [hnext] at hq
        rcases om_set_keys_sub hq with h' | h'
        · rcases om_set_keys_sub h' with h2 | h2
          · have := hkeys0 q h2; omega
          · omega
        · omega
      · have hfun : (fun i => cf1.next_indices.get i)
            = chainFun (fun i => cf0.next_indices.get i) p cf0.log.length 0 := by
          funext i
          rw [hnext]
          show ((cf0.next_indices.set p (some cf0.log.length)).set cf0.log.length
            (cf0.next_indices.get p)).get i = _
          rw [next_get_splice (by omega) i, chainFun_zero]
        have hnd0 : (walkAux (fun i => cf0.next_indices.get i)
            (cf0.log.length + 1) (some 0)).Nodup := by
          rw [hperm0.nodup_iff]
          exact List.nodup_range _
        have hlt0 : ∀ x ∈ walkAux (fun i => cf0.next_indices.get i)
            (cf0.log.length + 1) (some 0), x < cf0.log.length :=
          fun x hx => (hmem0 x).mp hx
        have hchain := walk_chainFun 0 hterm0 hnd0 hpW hlt0
        have hwalk1 : cf1.causal_walk
            = walkAux (fun i => cf1.next_indices.get i) (cf1.log.length + 1)
              (some 0) := by
          rw [Chronofold.causal_walk, hroot1]
          rw [if_neg (by rw [hlog]; simp)]
        rw [hwalk1, hfun, hlen1]
        have hfuel : cf0.log.length + 1 + 1 = cf0.log.length + 1 + 0 + 1 := by omega
        rw [hfuel]
        refine hchain.trans ?_
        have h1 : (List.range' cf0.log.length 1
            ++ walkAux (fun i => cf0.next_indices.get i) (cf0.log.length + 1)
              (some 0)).Perm
            (List.range' cf0.log.length 1 ++ List.range cf0.log.length) :=
          List.Perm.append_left _ hperm0
        refine h1.trans ?_
        refine (List.perm_append_comm).trans ?_
        rw [← range_append_range' cf0.log.length 1]
    | none =>
      have hrefn : refIdx = none := by
        cases hri : refIdx with
        | none => rfl
        | some r =>
          rw [hri] at hfp
          obtain ⟨q, hq⟩ := find_predecessor_isSome_of_ref hE0 hfp
          exact absurd hq (by simp)
      have hplref : op.payload.reference = none := hrefnone.mp hrefn
      have hlog0 : cf0.log = [] := hroot hplref
      have hlen0 : cf0.log.length = 0 := by rw [hlog0]; rfl
      refine ⟨hroot1, ?_, ?_, hE1, ?_⟩
      · rw [hnext]
        show (cf0.next_indices.set cf0.log.length none).dflt = 1
        rw [OffsetMap.set_dflt, hdflt0]
      · intro q hq
        rw [hnext] at hq
        rcases om_set_keys_sub hq with h' | h'
        · have := hkeys0 q h'; omega
        · omega
      · have hwalk1 : cf1.causal_walk
            = walkAux (fun i => cf1.next_indices.get i) (cf1.log.length + 1)
              (some 0) := by
          rw [Chronofold.causal_walk, hroot1]
          rw [if_neg (by rw [hlog]; simp)]
        rw [hwalk1, hlen1, hlen0]
        have hg0 : cf1.next_indices.get 0 = none := by
          rw [hnext]
          show (cf0.next_indices.set cf0.log.length none).get 0 = none
          rw [hlen0]
          exact OffsetMap.get_set_self _ _ _
        rw [show (0 : Nat) + 1 + 1 = 2 from rfl]
        rw [walkAux_some, hg0, walkAux_none]
        show ([0] : List Nat).Perm (List.range 1)
        decide
  | localStep hre hnoroot hap ih =>
    rename_i cf0 cf1 author reference changes out
    obtain ⟨hroot0, hdflt0, hkeys0, hE0, hperm0⟩ := ih
    cases changes with
    | nil =>
      rw [Chronofold.apply_local_changes] at hap
      cases hfld : cf0.find_last_delete reference with
      | none => rw [hfld] at hap; exact absurd hap (by simp)
      | some fld =>
        rw [hfld] at hap
        simp only [] at hap
        injection hap with hap'
        injection hap' with h1 h2
        subst h1
        exact ⟨hroot0, hdflt0, hkeys0, hE0, hperm0⟩
    | cons first rest =>
      obtain ⟨fld, hfld, hout, hlog, hrootf, hau, hsh, href, hver, hnext⟩ :=
        apply_local_changes_cons hap
      have hlen1 : cf1.log.length = cf0.log.length + (rest.length + 1) := by
        rw [hlog]; simp
      have hroot1 : cf1.root = 0 := by rw [hrootf, hroot0]
      -- the causal iteration in find_last_delete succeeded, so the
      -- reference is in bounds
      have hcl : ∃ l, cf0.iter_causal_from reference = some l := by
        rw [Chronofold.find_last_delete] at hfld
        cases hc : cf0.iter_causal_from reference with
        | none => rw [hc] at hfld; exact absurd hfld (by simp)
        | some l => exact ⟨l, rfl⟩
      obtain ⟨l, hl⟩ := hcl
      have hrlt : reference < cf0.log.length := iter_causal_from_some_lt hl
      have hlen0pos : 0 < cf0.log.length := by omega
      have hne0 : cf0.log.isEmpty = false := by
        cases hz : cf0.log.isEmpty
        · rfl
        · rw [List.isEmpty_iff] at hz
          rw [hz] at hlen0pos
          simp at hlen0pos
      have hwalk0 : cf0.causal_walk
          = walkAux (fun i => cf0.next_indices.get i) (cf0.log.length + 1)
            (some cf0.root) := by
        rw [Chronofold.causal_walk, hne0]
        simp
      rw [hwalk0, hroot0] at hperm0
      have hterm0 : (walkAux (fun i => cf0.next_indices.get i)
          (cf0.log.length + 1) (some 0)).length < cf0.log.length + 1 := by
        rw [hperm0.length_eq, List.length_range]
        omega
      have hmem0 : ∀ x, x ∈ walkAux (fun i => cf0.next_indices.get i)
          (cf0.log.length + 1) (some 0) ↔ x < cf0.log.length := by
        intro x
        rw [hperm0.mem_iff, List.mem_range]
      have hrW : reference ∈ walkAux (fun i => cf0.next_indices.get i)
          (cf0.log.length + 1) (some 0) := (hmem0 reference).mpr hrlt
      have hpW : fld.getD reference ∈ walkAux (fun i => cf0.next_indices.get i)
          (cf0.log.length + 1) (some 0) := by
        cases hfd : fld with
        | none => exact hrW
        | some d =>
          rw [hfd] at hfld
          rw [Chronofold.find_last_delete, hl, Option.map_some'] at hfld
          injection hfld with hfld'
          obtain ⟨q, hql, hqd⟩ := Option.map_eq_some'.mp hfld'
          have hqmem := getLast?_mem hql
          have hq1 := List.mem_filter.mp hqmem |>.1
          have hq2 : q ∈ l := List.mem_of_mem_drop hq1
          have := iter_causal_from_mem_walk hterm0 hrW hl q hq2
          rw [hqd] at this
          exact this
      have hplt : fld.getD reference < cf0.log.length :=
        (hmem0 _).mp hpW
      refine ⟨hroot1, ?_, ?_, ?_, ?_⟩
      · rw [hnext]
        rw [OffsetMap.set_dflt, OffsetMap.set_dflt, hdflt0]
      · intro q hq
        rw [hnext] at hq
        rcases om_set_keys_sub hq with h' | h'
        · rcases om_set_keys_sub h' with h2 | h2
          · have := hkeys0 q h2; omega
          · omega
        · omega
      · intro i hi
        by_cases hilt : i < cf0.log.length
        · have hlog0 : cf0.log.get? i = some Change.root := by
            rw [hlog] at hi
            rwa [List.get?_append hilt] at hi
          rw [href, OffsetMap.get_set_ne _ _ _ _ (by omega)]
          exact hE0 i hlog0
        · exfalso
          have hi1 : i < cf1.log.length := get?_some_lt hi
          rw [hlog, List.get?_append_right (by omega)] at hi
          have : Change.root ∈ (first :: rest) := List.get?_mem hi
          exact hnoroot this
      · have hfun : (fun i => cf1.next_indices.get i)
            = chainFun (fun i => cf0.next_indices.get i) (fld.getD reference)
              cf0.log.length rest.length := by
          funext i
          rw [hnext]
          exact next_get_chain hdflt0 hkeys0 hplt i
        have hnd0 : (walkAux (fun i => cf0.next_indices.get i)
            (cf0.log.length + 1) (some 0)).Nodup := by
          rw [hperm0.nodup_iff]
          exact List.nodup_range _
        have hlt0 : ∀ x ∈ walkAux (fun i => cf0.next_indices.get i)
            (cf0.log.length + 1) (some 0), x < cf0.log.length :=
          fun x hx => (hmem0 x).mp hx
        have hchain := walk_chainFun rest.length hterm0 hnd0 hpW hlt0
        have hwalk1 : cf1.causal_walk
            = walkAux (fun i => cf1.next_indices.get i) (cf1.log.length + 1)
              (some 0) := by
          rw [Chronofold.causal_walk, hroot1]
          rw [if_neg (by rw [hlog]; simp)]
        rw [hwalk1, hfun, hlen1]
        have hfuel : cf0.log.length + (rest.length + 1) + 1
            = cf0.log.length + 1 + rest.length + 1 := by omega
        rw [hfuel]
        refine hchain.trans ?_
        have h1 := List.Perm.append_left (List.range' cf0.log.length
          (rest.length + 1)) hperm0
        refine h1.trans ?_
        refine (List.perm_append_comm).trans ?_
        rw [← range_append_range' cf0.log.length (rest.length + 1)]

/-- C6, amended.  In every replica state reachable from the empty
chronofold by successful `apply` and session operations *in which at most
one root op (an op with reference `None`) is applied — to the still-empty
replica*, following `next_indices` from the first causal entry (the root,
at log index 0) visits every log index in `0..log.len()` exactly once.
(Without the amendment a second root op yields a reachable state whose
walk misses the second root, see the counterexample.) -/
theorem claim_c6_causal_walk_total {cf : Chronofold}
    (h : SingleRootReachable cf) :
    (cf.causal_walk).Perm (List.range cf.log.length) :=
  (srr_inv h).2.2.2.2

/-- C6, witness: the walk of the two-entry replica `cfBang` visits both
log indices exactly once. -/
theorem claim_c6_causal_walk_total_witness :
    (cfBang.causal_walk).Perm (List.range cfBang.log.length) :=
  claim_c6_causal_walk_total
    (SingleRootReachable.localStep
      (SingleRootReachable.applyStep SingleRootReachable.empty
        (show emptyChronofold.apply (Op.root ⟨0, 0⟩) = .ok cfRoot from rfl)
        (fun _ => rfl))
      (by decide)
      (show cfRoot.apply_local_changes 1 0 [Change.insert '!']
         = some (cfBang, some 1) from rfl))

theorem walkAux_fuel_irrel {next : Nat → Option Nat} :
    ∀ {fuel fuel' : Nat} {s : Option Nat},
      (walkAux next fuel s).length < fuel → fuel ≤ fuel' →
      walkAux next fuel' s = walkAux next fuel s := by
  intro fuel
  induction fuel with
  | zero => intro fuel' s hterm _; rw [walkAux_nil_fuel] at hterm; simp at hterm
  | succ fuel ih =>
    intro fuel' s hterm hle
    cases s with
    | none => rw [walkAux_none, walkAux_none]
    | some i =>
      obtain ⟨f2, hf2⟩ : ∃ f2, fuel' = f2 + 1 := ⟨fuel' - 1, by omega⟩
      subst hf2
      rw [walkAux_some, walkAux_some]
      rw [walkAux_some] at hterm
      simp only [List.length_cons] at hterm
      rw [ih (by omega) (by omega)]

theorem walk_suffix_of_mem {next : Nat → Option Nat} :
    ∀ {fuel : Nat} {s : Option Nat} {y : Nat},
      (walkAux next fuel s).length < fuel →
      y ∈ walkAux next fuel s →
      (walkAux next fuel (some y)) <:+ (walkAux next fuel s) := by
  intro fuel
  induction fuel with
  | zero => intro s y _ hy; rw [walkAux_nil_fuel] at hy; exact absurd hy (by simp)
  | succ fuel ih =>
    intro s y hterm hy
    cases s with
    | none => rw [walkAux_none] at hy; exact absurd hy (by simp)
    | some x =>
      rw [walkAux_some] at hy
      rcases List.mem_cons.mp hy with h' | h'
      · subst h'
        exact List.suffix_refl _
      · rw [walkAux_some] at hterm
        simp only [List.length_cons] at hterm
        have hterm' : (walkAux next fuel (next x)).length < fuel := by omega
        have hsfx := ih hterm' h'
        have hylen : (walkAux next fuel (some y)).length < fuel := by
          have := hsfx.sublist.length_le
          omega
        rw [walkAux_fuel_irrel hylen (by omega)]
        rw [walkAux_some]
        exact hsfx.trans (List.suffix_cons x _)

theorem apply_change_next_delete {cf cf' : Chronofold} {id : Timestamp}
    {r n : Nat}
    (hac : cf.apply_change id (some r) Change.delete = some (cf', n)) :
    cf'.next_indices
      = (cf.next_indices.set r (some cf.log.length)).set cf.log.length
        (cf.next_indices.get r) := by
  obtain ⟨pred, hfp, hnext⟩ := apply_change_next hac
  have hpred : pred = some r := by
    simp only [Chronofold.find_predecessor] at hfp
    injection hfp with hfp'
    exact hfp'.symm
  subst hpred
  exact hnext

/-- C4.  (1) For a Delete with reference `r`, `find_predecessor` returns
exactly `r`.  (2) Hence `apply_change` splices the tombstone immediately
after `r`: `r`'s causal successor becomes the new entry, and the new entry
inherits `r`'s previous successor.  (3) Hence, in a reachable state, every
previously placed sibling `s` of `r` (an entry referencing `r`, sitting in
`r`'s causal suffix as every placed sibling does) comes causally after the
new tombstone: `s` lies in the `next`-walk starting at the new entry. -/
theorem claim_c4_delete_priority :
    (∀ (cf : Chronofold) (id : Timestamp) (r : Nat),
      cf.find_predecessor id (some r) Change.delete = some (some r)) ∧
    (∀ (cf cf' : Chronofold) (id : Timestamp) (r n : Nat),
      cf.apply_change id (some r) Change.delete = some (cf', n) →
      r ≠ cf.log.length →
      n = cf.log.length ∧
      cf'.next_indices.get r = some cf.log.length ∧
      cf'.next_indices.get cf.log.length = cf.next_indices.get r) ∧
    (∀ (cf cf' : Chronofold) (id : Timestamp) (r n s : Nat),
      SingleRootReachable cf →
      cf.apply_change id (some r) Change.delete = some (cf', n) →
      r < cf.log.length →
      cf.references.get s = some r →
      s ∈ walkAux (fun i => cf.next_indices.get i) (cf.log.length + 1) (some r) →
      s ≠ r →
      s ∈ walkAux (fun i => cf'.next_indices.get i) (cf'.log.length + 1) (some n)) := by
  refine ⟨?_, ?_, ?_⟩
  · intro cf id r
    simp only [Chronofold.find_predecessor]
  · intro cf cf' id r n hac hr
    obtain ⟨hn, -, -, -, -, -, -, -⟩ := apply_change_fields hac
    have hnext := apply_change_next_delete hac
    refine ⟨hn, ?_, ?_⟩
    · rw [hnext, OffsetMap.get_set_ne _ _ _ _ hr, OffsetMap.get_set_self]
    · rw [hnext, OffsetMap.get_set_self]
  · intro cf cf' id r n s hsrr hac hrlt hsib hsfx hsne
    obtain ⟨hroot0, hdflt0, hkeys0, hE0, hperm0⟩ := srr_inv hsrr
    obtain ⟨hn, -, hlog, -, -, -, -, -⟩ := apply_change_fields hac
    have hnext := apply_change_next_delete hac
    have hlen1 : cf'.log.length = cf.log.length + 1 := by rw [hlog]; simp
    have hlen0pos : 0 < cf.log.length := by omega
    have hne0 : cf.log.isEmpty = false := by
      cases hz : cf.log.isEmpty
      · rfl
      · rw [List.isEmpty_iff] at hz
        rw [hz] at hlen0pos
        simp at hlen0pos
    have hwalk0 : cf.causal_walk
        = walkAux (fun i => cf.next_indices.get i) (cf.log.length + 1)
          (some 0) := by
      rw [Chronofold.causal_walk, hne0, hroot0]
      simp
    rw [hwalk0] at hperm0
    have hterm0 : (walkAux (fun i => cf.next_indices.get i)
        (cf.log.length + 1) (some 0)).length < cf.log.length + 1 := by
      rw [hperm0.length_eq, List.length_range]
      omega
    have hrW : r ∈ walkAux (fun i => cf.next_indices.get i)
        (cf.log.length + 1) (some 0) := by
      rw [hperm0.mem_iff, List.mem_range]
      exact hrlt
    have hS := walk_suffix_of_mem hterm0 hrW
    have hSnd : (walkAux (fun i => cf.next_indices.get i)
        (cf.log.length + 1) (some r)).Nodup :=
      (hperm0.nodup_iff.mpr (List.nodup_range _)).sublist hS.sublist
    have hSsub : ∀ x ∈ walkAux (fun i => cf.next_indices.get i)
        (cf.log.length + 1) (some r), x < cf.log.length := by
      intro x hx
      have := hS.sublist.mem hx
      rw [hperm0.mem_iff, List.mem_range] at this
      exact this
    have hScons : walkAux (fun i => cf.next_indices.get i)
        (cf.log.length + 1) (some r)
        = r :: walkAux (fun i => cf.next_indices.get i) (cf.log.length)
          (cf.next_indices.get r) := walkAux_some _ _ _
    have hsS1 : s ∈ walkAux (fun i => cf.next_indices.get i) (cf.log.length)
        (cf.next_indices.get r) := by
      rw [hScons] at hsfx
      rcases List.mem_cons.mp hsfx with h' | h'
      · exact absurd h' hsne
      · exact h'
    have hS1len : (walkAux (fun i => cf.next_indices.get i) (cf.log.length)
        (cf.next_indices.get r)).length < cf.log.length := by
      have h1 := hS.sublist.length_le
      rw [hperm0.length_eq, List.length_range] at h1
      rw [hScons] at h1
      simp only [List.length_cons] at h1
      omega
    have hS1irrel : walkAux (fun i => cf.next_indices.get i)
        (cf.log.length + 1) (cf.next_indices.get r)
        = walkAux (fun i => cf.next_indices.get i) (cf.log.length)
          (cf.next_indices.get r) :=
      walkAux_fuel_irrel hS1len (by omega)
    have hrnotS1 : r ∉ walkAux (fun i => cf.next_indices.get i)
        (cf.log.length) (cf.next_indices.get r) := by
      rw [hScons] at hSnd
      exact (List.nodup_cons.mp hSnd).1
    have hcongr : walkAux (fun i => cf'.next_indices.get i)
        (cf.log.length + 1) (cf.next_indices.get r)
        = walkAux (fun i => cf.next_indices.get i) (cf.log.length + 1)
          (cf.next_indices.get r) := by
      apply walkAux_congr
      intro j hj
      rw [hS1irrel] at hj
      have hjr : j ≠ r := fun hc => hrnotS1 (hc ▸ hj)
      have hjlt : j < cf.log.length := by
        apply hSsub
        rw [hScons]
        exact List.mem_cons_of_mem _ hj
      rw [hnext, OffsetMap.get_set_ne _ _ _ _ (by omega),
        OffsetMap.get_set_ne _ _ _ _ hjr]
    have hgn : cf'.next_indices.get cf.log.length = cf.next_indices.get r := by
      rw [hnext, OffsetMap.get_set_self]
    subst hn
    rw [hlen1, walkAux_some, hgn]
    refine List.mem_cons_of_mem _ ?_
    rw [hcongr, hS1irrel]
    exact hsS1

/-- C4, witness: in `cfDel1` (root, '1', '2', and author 1's tombstone at
index 3 referencing index 2), a second concurrent delete of index 2 picks
insertion point 2 exactly, splices its tombstone (index 4) right after 2,
and the previously placed sibling tombstone 3 comes causally after it. -/
theorem claim_c4_delete_priority_witness :
    cfDel1.find_predecessor ⟨3, 2⟩ (some 2) Change.delete = some (some 2) ∧
    (4 = cfDel1.log.length ∧
      cfDel2.next_indices.get 2 = some cfDel1.log.length ∧
      cfDel2.next_indices.get cfDel1.log.length = cfDel1.next_indices.get 2) ∧
    3 ∈ walkAux (fun i => cfDel2.next_indices.get i)
      (cfDel2.log.length + 1) (some 4) := by
  have hsrr : SingleRootReachable cfDel1 :=
    SingleRootReachable.applyStep
      (SingleRootReachable.applyStep
        (SingleRootReachable.applyStep
          (SingleRootReachable.applyStep SingleRootReachable.empty
            (show emptyChronofold.apply (Op.root ⟨0, 0⟩) = .ok cfRoot from rfl)
            (fun _ => rfl))
          (show cfRoot.apply (Op.insert ⟨1, 1⟩ (some ⟨0, 0⟩) '1') = .ok cfR1 from rfl)
          (fun h => Option.noConfusion h))
        (show cfR1.apply (Op.insert ⟨2, 1⟩ (some ⟨1, 1⟩) '2') = .ok cfR12 from rfl)
        (fun h => Option.noConfusion h))
      (show cfR12.apply opL1 = .ok cfDel1 from rfl)
      (fun h => Option.noConfusion h)
  refine ⟨claim_c4_delete_priority.1 cfDel1 ⟨3, 2⟩ 2, ?_, ?_⟩
  · exact claim_c4_delete_priority.2.1 cfDel1 cfDel2 ⟨3, 2⟩ 2 4
      (by rfl) (by decide)
  · exact claim_c4_delete_priority.2.2 cfDel1 cfDel2 ⟨3, 2⟩ 2 4 3 hsrr
      (by rfl) (by decide) (by decide) (by decide) (by decide)

theorem filterPanicAux_eq_filter {cf : Chronofold} {id : Timestamp} :
    ∀ {l : List (Change × Nat)},
      (∀ p ∈ l, p.1 ≠ Change.delete → (cf.timestamp p.2).isSome) →
      filterPanicAux cf id l = some (l.filter
        (fun p => p.1 = Change.delete
          || (cf.timestamp p.2).any (fun t => id.lt t))) := by
  intro l
  induction l with
  | nil => intro _; rfl
  | cons x xs ih =>
    intro hts
    have hts' : ∀ p ∈ xs, p.1 ≠ Change.delete → (cf.timestamp p.2).isSome :=
      fun p hp => hts p (List.mem_cons_of_mem _ hp)
    rcases x with ⟨c, i⟩
    cases c with
    | delete =>
      rw [filterPanicAux]
      rw [show siblingKeep cf id (Change.delete, i) = some true from rfl]
      rw [ih hts', Option.map_some']
      rw [List.filter_cons]
      rw [show ((Change.delete, i).1 = Change.delete
        || (cf.timestamp (Change.delete, i).2).any (fun t => id.lt t)) = true by simp]
      rfl
    | root =>
      have hsome : (cf.timestamp i).isSome :=
        hts (Change.root, i) (List.mem_cons_self _ _) (by simp)
      obtain ⟨t, ht⟩ := Option.isSome_iff_exists.mp hsome
      rw [filterPanicAux]
      rw [show siblingKeep cf id (Change.root, i)
        = (cf.timestamp i).map (fun t => id.lt t) from rfl]
      rw [ht, Option.map_some']
      rw [List.filter_cons]
      have hpred : ((Change.root, i).1 = Change.delete
          || (cf.timestamp (Change.root, i).2).any (fun t => id.lt t))
          = id.lt t := by
        show (decide (Change.root = Change.delete)
          || (cf.timestamp i).any (fun t => id.lt t)) = id.lt t
        rw [ht]
        simp [Option.any]
      rw [hpred]
      cases hb : id.lt t with
      | true => rw [ih hts', Option.map_some']; simp
      | false => rw [ih hts']; simp
    | insert v =>
      have hsome : (cf.timestamp i).isSome :=
        hts (Change.insert v, i) (List.mem_cons_self _ _) (by simp)
      obtain ⟨t, ht⟩ := Option.isSome_iff_exists.mp hsome
      rw [filterPanicAux]
      rw [show siblingKeep cf id (Change.insert v, i)
        = (cf.timestamp i).map (fun t => id.lt t) from rfl]
      rw [ht, Option.map_some']
      rw [List.filter_cons]
      have hpred : ((Change.insert v, i).1 = Change.delete
          || (cf.timestamp (Change.insert v, i).2).any (fun t => id.lt t))
          = id.lt t := by
        show (decide (Change.insert v = Change.delete)
          || (cf.timestamp i).any (fun t => id.lt t)) = id.lt t
        rw [ht]
        simp [Option.any]
      rw [hpred]
      cases hb : id.lt t with
      | true => rw [ih hts', Option.map_some']; simp
      | false => rw [ih hts']; simp

/-- C5.  (1) For an Insert with id `t` and reference `r`:
`find_predecessor` selects, among the existing entries whose reference is
`r` (in causal order from `r`), those that are a Delete or whose timestamp
is greater than `t`; if any exist, the insertion point is the last log
index (in causal order) of the subtree of the last such sibling, otherwise
it is `r` itself.  (The hypothesis says the non-delete siblings have
reconstructible timestamps, which rules out the `unwrap` panic.)
(2) `apply_change` then splices the new entry immediately after the chosen
insertion point. -/
theorem claim_c5_insert_predecessor :
    (∀ (cf : Chronofold) (id : Timestamp) (r : Nat) (v : Char)
        (l : List (Change × Nat)),
      cf.iter_causal_from r = some l →
      (∀ p ∈ l.filter (fun p => cf.references.get p.2 = some r),
        p.1 ≠ Change.delete → (cf.timestamp p.2).isSome) →
      cf.find_predecessor id (some r) (Change.insert v)
        = match ((l.filter (fun p => cf.references.get p.2 = some r)).filter
            (fun p => p.1 = Change.delete
              || (cf.timestamp p.2).any (fun t => id.lt t))).getLast? with
          | some q => (cf.iter_subtree q.2).map (fun sub => sub.getLast?)
          | none => some (some r)) ∧
    (∀ (cf cf' : Chronofold) (id : Timestamp) (r n p : Nat) (v : Char),
      cf.apply_change id (some r) (Change.insert v) = some (cf', n) →
      cf.find_predecessor id (some r) (Change.insert v) = some (some p) →
      p ≠ cf.log.length →
      n = cf.log.length ∧
      cf'.next_indices.get p = some cf.log.length ∧
      cf'.next_indices.get cf.log.length = cf.next_indices.get p) := by
  constructor
  · intro cf id r v l hl hts
    simp only [Chronofold.find_predecessor]
    rw [hl]
    simp only []
    rw [filterPanicAux_eq_filter hts]
    split
    next hk => exact absurd hk (by simp)
    next kept hk =>
      injection hk with hk'
      subst hk'
      cases hlast : ((l.filter (fun p => cf.references.get p.2 = some r)).filter
          (fun p => p.1 = Change.delete
            || (cf.timestamp p.2).any (fun t => id.lt t))).getLast? with
      | none => rfl
      | some q =>
        rcases q with ⟨c, idx⟩
        rfl
  · intro cf cf' id r n p v hac hfp hpn
    obtain ⟨hn, -, -, -, -, -, -, -⟩ := apply_change_fields hac
    obtain ⟨pred, hfp2, hnext⟩ := apply_change_next hac
    rw [hfp] at hfp2
    injection hfp2 with hpred
    subst hpred
    refine ⟨hn, ?_, ?_⟩
    · rw [hnext, OffsetMap.get_set_ne _ _ _ _ hpn, OffsetMap.get_set_self]
    · rw [hnext, OffsetMap.get_set_self]

/-- C5, witness: in `cfDel1`, an insert with id `(4,2)` after index 2 has
one qualifying sibling (the tombstone at index 3), so the insertion point
is the last entry of the tombstone's subtree (index 3), and the new entry
(index 4) is spliced right after it. -/
theorem claim_c5_insert_predecessor_witness :
    cfDel1.find_predecessor ⟨4, 2⟩ (some 2) (Change.insert 'Y') = some (some 3) ∧
    (4 = cfDel1.log.length ∧
      cfY.next_indices.get 3 = some cfDel1.log.length ∧
      cfY.next_indices.get cfDel1.log.length = cfDel1.next_indices.get 3) := by
  constructor
  · exact (claim_c5_insert_predecessor.1 cfDel1 ⟨4, 2⟩ 2 'Y'
      [(Change.insert '2', 2), (Change.delete, 3)] rfl (by decide)).trans rfl
  · exact claim_c5_insert_predecessor.2 cfDel1 cfY ⟨4, 2⟩ 2 4 3 'Y'
      (by rfl) (by rfl) (by decide)
